import Mathlib

/-!
Verification development for the core of the `Tubes3_farrelcarry` CV-search
system.  The Python modules under `src/core` are shallowly embedded below:

* `fuzzy_matching.py`       → namespace `FuzzyMatching`
* `pattern_matching/…`      → namespaces `KMPAlgorithm`, `BoyerMooreAlgorithm`,
                              `AhoCorasickAlgorithm`, `PatternMatcherFactory`
* `cv_data_store.py`        → namespace `CVDataStore`
* `search_service.py`       → namespace `SearchService`

Python strings are modelled as Lean `String`s (lists of characters),
Python `int` as `ℤ` where it can go negative (the data-store progress
counters) and as `ℕ` where the code only ever handles sizes and counts,
Python `float` as `ℚ` (all the float arithmetic in the source is exact
division and comparison), and Python `dict`s as insertion-ordered
association lists, mirroring the guaranteed insertion-order semantics of
Python 3.7+ dictionaries.
-/

namespace Tubes3

/-- Python `dict` assignment `d[k] = v`: update the value in place if the key
is present, otherwise append the binding at the end (insertion order). -/
def dictInsert {κ ν : Type} [DecidableEq κ] :
    List (κ × ν) → κ → ν → List (κ × ν)
  | [], k, v => [(k, v)]
  | (k', v') :: rest, k, v =>
    if k' = k then (k', v) :: rest else (k', v') :: dictInsert rest k v

/-- Python `d.get(k)` / `k in d`: first (and only) binding for a key. -/
def dictGet {κ ν : Type} [DecidableEq κ] :
    List (κ × ν) → κ → Option ν
  | [], _ => none
  | (k', v') :: rest, k => if k' = k then some v' else dictGet rest k

theorem dictGet_dictInsert {κ ν : Type} [DecidableEq κ]
    (l : List (κ × ν)) (k k' : κ) (v : ν) :
    dictGet (dictInsert l k v) k' = if k' = k then some v else dictGet l k' := by
  induction l with
  | nil =>
    by_cases h : k = k'
    · subst h; simp [dictInsert, dictGet]
    · simp [dictInsert, dictGet, h, Ne.symm h]
  | cons hd tl ih =>
    obtain ⟨k₀, v₀⟩ := hd
    by_cases h0 : k₀ = k
    · subst h0
      by_cases h : k₀ = k'
      · subst h; simp [dictInsert, dictGet]
      · simp [dictInsert, dictGet, h, Ne.symm h]
    · by_cases h : k₀ = k'
      · subst h
        simp [dictInsert, dictGet, h0, Ne.symm h0]
      · simp [dictInsert, dictGet, h0, h, ih]

/-- Keys of an association-list dictionary. -/
def dictKeys {κ ν : Type} (l : List (κ × ν)) : List κ := l.map Prod.fst

theorem dictGet_isSome_iff_mem_keys {κ ν : Type} [DecidableEq κ]
    (l : List (κ × ν)) (k : κ) :
    (dictGet l k).isSome ↔ k ∈ dictKeys l := by
  induction l with
  | nil => simp [dictGet, dictKeys]
  | cons hd tl ih =>
    obtain ⟨k₀, v₀⟩ := hd
    by_cases h : k₀ = k
    · subst h; simp [dictGet, dictKeys]
    · have h' : ¬ k = k₀ := fun he => h he.symm
      simp [dictGet, dictKeys, h, h', ih]

end Tubes3

namespace Tubes3.CVDataStore

/-- One value of the `self.cvs` dictionary.  `add_cv` stores the keys
`"cv_path"` and `"text"`; the search service additionally reads the key
`"flat_text"` with `dict.get` defaulting to `""`.  Optional fields model
possibly-absent dictionary keys. -/
structure CVEntry where
  cv_path : String
  text : Option String
  flat_text : Option String
deriving DecidableEq, Repr

/-- Python `cv_content.get("flat_text", "")`. -/
def CVEntry.flatTextD (e : CVEntry) : String := e.flat_text.getD ""

/-- The mutable state of a `CVDataStore` instance: the `cvs` dictionary,
the `_parsing_status` dictionary (fields `progress` and `total`) and the
`parsing_complete_event` flag.  The `threading.Lock` only serialises
accesses and has no effect on the sequential state transitions modelled
here. -/
structure State where
  cvs : List (ℕ × CVEntry)
  progress : ℤ
  total : ℤ
  eventSet : Bool
deriving DecidableEq, Repr

/-- Fresh store, as built by `CVDataStore.__init__`. -/
def State.init : State := ⟨[], 0, 0, false⟩

/-- Embedding of `CVDataStore.add_cv`: `self.cvs[detail_id] = {"cv_path":
cv_path, "text": text}`. -/
def add_cv (s : State) (detail_id : ℕ) (cv_path text : String) : State :=
  { s with cvs := dictInsert s.cvs detail_id ⟨cv_path, some text, none⟩ }

/-- Embedding of `CVDataStore.get_all_cvs`. -/
def get_all_cvs (s : State) : List (ℕ × CVEntry) := s.cvs

/-- Embedding of `CVDataStore.update_status`: store the new progress and
total, then set the completion event iff `progress >= total and total > 0`
and the event is not already set. -/
def update_status (s : State) (progress total : ℤ) : State :=
  let shouldComplete : Bool := decide (progress ≥ total) && decide (total > 0)
  { s with
    progress := progress
    total := total
    eventSet := s.eventSet || shouldComplete }

/-- The dictionary returned by `CVDataStore.get_status`. -/
structure Status where
  parsed_count : ℤ
  total_count : ℤ
  is_done : Bool
deriving DecidableEq, Repr

/-- Embedding of `CVDataStore.get_status`.  It reads the stored progress,
self-heals it to `total` when the completion event is set with a positive
total (also writing the healed value back), and reports the event flag. -/
def get_status (s : State) : Status × State :=
  let progress0 := s.progress
  let total := s.total
  let is_done := s.eventSet
  let progress := if is_done = true ∧ total > 0 then total else progress0
  let s' := if is_done = true ∧ total > 0 then { s with progress := total } else s
  (⟨progress, total, is_done⟩, s')

end Tubes3.CVDataStore

namespace Tubes3.FuzzyMatching

/-- Python `str.lower()`, modelled character-wise. -/
def lower (s : List Char) : List Char := s.map Char.toLower

/-- Reference recursive formulation of the Levenshtein distance, peeling
characters from the front; the dynamic-programming table of the source is
proved below to compute it on the reversed inputs. -/
def levRec : List Char → List Char → ℕ
  | [], ys => ys.length
  | x :: xs, [] => xs.length + 1
  | x :: xs, y :: ys =>
    min (levRec xs (y :: ys) + 1)
      (min (levRec (x :: xs) ys + 1)
        (levRec xs ys + if x = y then 0 else 1))
termination_by xs ys => xs.length + ys.length

/-- Row `i+1` of the distance table, given row `i` as a function of `j` and
the character `s1[i]`: `dp[i+1][0] = i+1` and
`dp[i+1][j+1] = min(dp[i][j+1] + 1, dp[i+1][j] + 1, dp[i][j] + cost)` with
`cost = 0` iff `s1[i] == s2[j]`. -/
def dpCell (prevRow : ℕ → ℕ) (c : Char) (s2 : List Char) : ℕ → ℕ
  | 0 => prevRow 0 + 1
  | j + 1 =>
    min (prevRow (j + 1) + 1)
      (min (dpCell prevRow c s2 j + 1)
        (prevRow j + if c = s2.getD j default then 0 else 1))

/-- Entry `dp[i][j]` of the table built by `calculate_levenshtein_distance`:
`dp[0][j] = j` and row `i+1` is obtained from row `i` by `dpCell`.  Each
entry of the Python table is written exactly once, from the entry above,
the entry to the left and the diagonal entry, so the finished table
satisfies exactly this recurrence. -/
def dpEntry (s1 s2 : List Char) : ℕ → ℕ → ℕ
  | 0 => fun j => j
  | i + 1 => dpCell (dpEntry s1 s2 i) (s1.getD i default) s2

/-- Embedding of `calculate_levenshtein_distance`: lowercase both inputs and
return the bottom-right cell `dp[m][n]` of the table. -/
def calculate_levenshtein_distance (s1 s2 : String) : ℕ :=
  let l1 := lower s1.data
  let l2 := lower s2.data
  dpEntry l1 l2 l1.length l2.length

/-- Python `str.split()` with no separator: split on runs of whitespace,
producing no empty words.  `acc` is the current word, reversed. -/
def pySplitAux : List Char → List Char → List (List Char)
  | [], acc => if acc = [] then [] else [acc.reverse]
  | c :: rest, acc =>
    if c.isWhitespace then
      if acc = [] then pySplitAux rest []
      else acc.reverse :: pySplitAux rest []
    else pySplitAux rest (c :: acc)

/-- Python `set(text.lower().split())`: the duplicate-free collection of
whitespace-separated words.  A Python `set` iterates in an unspecified
order; every property proved about it below is order-independent. -/
def wordsOf (text : String) : List String :=
  ((pySplitAux (lower text.data) []).map fun w => String.mk w).dedup

/-- Similarity score `1 - distance / max(len(keyword), len(word))` used by
`find_similar_word` (meaningful whenever one of the strings is nonempty). -/
def simScore (keyword word : String) : ℚ :=
  1 - (calculate_levenshtein_distance keyword word : ℚ) /
    ((max keyword.length word.length : ℕ) : ℚ)

/-- One iteration of the `for word in words_in_text` loop of
`find_similar_word`: skip words where both lengths are zero, otherwise
update the running `(best_match, highest_similarity)` pair when the
similarity is strictly greater. -/
def scanWord (keyword : String) (st : Option String × ℚ) (word : String) :
    Option String × ℚ :=
  if max keyword.length word.length = 0 then st
  else if st.2 < simScore keyword word then (some word, simScore keyword word)
  else st

/-- Embedding of `find_similar_word`.  The returned pair has an optional
first component because Python initialises `best_match = None` and returns
`(best_match, highest_similarity)` unconditionally once the threshold test
passes. -/
def find_similar_word (keyword text : String) (threshold : ℚ) :
    Option (Option String × ℚ) :=
  let final := (wordsOf text).foldl (scanWord keyword) (none, 0)
  if threshold ≤ final.2 then some final else none

end Tubes3.FuzzyMatching

namespace Tubes3.FuzzyMatching

theorem levRec_nil_left (ys : List Char) : levRec [] ys = ys.length := by
  simp [levRec]

theorem levRec_nil_right (xs : List Char) : levRec xs [] = xs.length := by
  cases xs <;> simp [levRec]

theorem levRec_cons_cons (x y : Char) (xs ys : List Char) :
    levRec (x :: xs) (y :: ys) =
      min (levRec xs (y :: ys) + 1)
        (min (levRec (x :: xs) ys + 1)
          (levRec xs ys + if x = y then 0 else 1)) := by
  rw [levRec]

theorem levRec_self (xs : List Char) : levRec xs xs = 0 := by
  induction xs with
  | nil => simp [levRec]
  | cons x xs ih => rw [levRec_cons_cons]; simp [ih]

theorem levRec_symm (xs ys : List Char) : levRec xs ys = levRec ys xs := by
  induction xs generalizing ys with
  | nil => rw [levRec_nil_left, levRec_nil_right]
  | cons x xs ihx =>
    induction ys with
    | nil => rw [levRec_nil_left, levRec_nil_right]
    | cons y ys ihy =>
      rw [levRec_cons_cons, levRec_cons_cons, ihx (y :: ys), ihx ys, ihy]
      have hc : (if x = y then 0 else 1) = (if y = x then 0 else 1) := by
        by_cases h : x = y
        · simp [h]
        · simp [h, Ne.symm h]
      rw [hc]
      omega

/-- An edit script between two character lists: `Aligns a b n` holds when
`b` can be obtained from `a` with `n` single-character edits (substitution,
deletion, insertion).  `levRec` is proved below to be the least such `n`. -/
inductive Aligns : List Char → List Char → ℕ → Prop
  | nil : Aligns [] [] 0
  | keep : ∀ (c : Char) (xs ys : List Char) (n : ℕ),
      Aligns xs ys n → Aligns (c :: xs) (c :: ys) n
  | sub : ∀ (c d : Char) (xs ys : List Char) (n : ℕ),
      Aligns xs ys n → Aligns (c :: xs) (d :: ys) (n + 1)
  | del : ∀ (c : Char) (xs ys : List Char) (n : ℕ),
      Aligns xs ys n → Aligns (c :: xs) ys (n + 1)
  | ins : ∀ (d : Char) (xs ys : List Char) (n : ℕ),
      Aligns xs ys n → Aligns xs (d :: ys) (n + 1)

theorem levRec_le_of_aligns {xs ys : List Char} {n : ℕ}
    (h : Aligns xs ys n) : levRec xs ys ≤ n := by
  induction h with
  | nil => simp [levRec]
  | keep c xs' ys' n' h' ih =>
    rw [levRec_cons_cons]
    have hc : (if c = c then (0 : ℕ) else 1) = 0 := by simp
    rw [hc]
    omega
  | sub c d xs' ys' n' h' ih =>
    rw [levRec_cons_cons]
    have hc : (if c = d then (0 : ℕ) else 1) ≤ 1 := by split <;> omega
    omega
  | del c xs' ys' n' h' ih =>
    cases ys' with
    | nil =>
      rw [levRec_nil_right] at ih ⊢
      simp only [List.length_cons]
      omega
    | cons y ys'' =>
      rw [levRec_cons_cons]
      omega
  | ins d xs' ys' n' h' ih =>
    cases xs' with
    | nil =>
      rw [levRec_nil_left] at ih ⊢
      simp only [List.length_cons]
      omega
    | cons x xs'' =>
      rw [levRec_cons_cons]
      omega

theorem aligns_nil_left (ys : List Char) : Aligns [] ys ys.length := by
  induction ys with
  | nil => exact .nil
  | cons y ys ih => exact .ins y _ _ _ ih

theorem aligns_nil_right (xs : List Char) : Aligns xs [] xs.length := by
  induction xs with
  | nil => exact .nil
  | cons x xs ih => exact .del x _ _ _ ih

theorem aligns_min3 {a b : List Char} {p q r : ℕ}
    (hp : Aligns a b p) (hq : Aligns a b q) (hr : Aligns a b r) :
    Aligns a b (min p (min q r)) := by
  have hcase : min p (min q r) = p ∨ min p (min q r) = q ∨ min p (min q r) = r := by
    omega
  rcases hcase with h | h | h <;> rw [h] <;> assumption

theorem aligns_levRec (xs ys : List Char) : Aligns xs ys (levRec xs ys) := by
  induction xs generalizing ys with
  | nil => rw [levRec_nil_left]; exact aligns_nil_left ys
  | cons x xs ihx =>
    induction ys with
    | nil => rw [levRec_nil_right]; exact aligns_nil_right (x :: xs)
    | cons y ys ihy =>
      rw [levRec_cons_cons]
      refine aligns_min3 (.del x _ _ _ (ihx (y :: ys))) (.ins y _ _ _ ihy) ?_
      by_cases hxy : x = y
      · subst hxy
        have hc : levRec xs ys + (if x = x then (0 : ℕ) else 1) = levRec xs ys := by
          simp
        rw [hc]
        exact .keep x _ _ _ (ihx ys)
      · have hc : levRec xs ys + (if x = y then (0 : ℕ) else 1) = levRec xs ys + 1 := by
          simp [hxy]
        rw [hc]
        exact .sub x y _ _ _ (ihx ys)

theorem aligns_trans : ∀ (N : ℕ) (a b c : List Char) (m n : ℕ),
    a.length + b.length + c.length ≤ N →
    Aligns a b m → Aligns b c n → ∃ k, k ≤ m + n ∧ Aligns a c k := by
  intro N
  induction N with
  | zero =>
    intro a b c m n hlen h1 h2
    have ha : a = [] := by cases a <;> simp_all
    have hc : c = [] := by cases c <;> simp_all
    have hb : b = [] := by cases b <;> (cases a <;> simp_all)
    subst ha; subst hc; subst hb
    cases h1 with
    | nil => exact ⟨n, by omega, h2⟩
  | succ N ih =>
    intro a b c m n hlen h1 h2
    cases h2 with
    | nil =>
      exact ⟨m, by omega, h1⟩
    | ins d bs cs n2 h2' =>
      obtain ⟨k, hk, hac⟩ := ih a b cs _ _
        (by simp only [List.length_cons] at hlen; omega) h1 h2'
      exact ⟨k + 1, by omega, .ins d _ _ _ hac⟩
    | keep d bs cs n2 h2' =>
      cases h1 with
      | keep c1 as bs2 m2 h1' =>
        obtain ⟨k, hk, hac⟩ := ih as bs cs _ _
          (by simp only [List.length_cons] at hlen; omega) h1' h2'
        exact ⟨k, by omega, .keep d _ _ _ hac⟩
      | sub c1 d1 as bs2 m2 h1' =>
        obtain ⟨k, hk, hac⟩ := ih as bs cs _ _
          (by simp only [List.length_cons] at hlen; omega) h1' h2'
        exact ⟨k + 1, by omega, .sub c1 d _ _ _ hac⟩
      | del c1 as bs2 m2 h1' =>
        obtain ⟨k, hk, hac⟩ := ih as (d :: bs) (d :: cs) _ _
          (by simp only [List.length_cons] at hlen ⊢; omega) h1' (.keep d _ _ _ h2')
        exact ⟨k + 1, by omega, .del c1 _ _ _ hac⟩
      | ins d1 as bs2 m2 h1' =>
        obtain ⟨k, hk, hac⟩ := ih a bs cs _ _
          (by simp only [List.length_cons] at hlen; omega) h1' h2'
        exact ⟨k + 1, by omega, .ins d _ _ _ hac⟩
    | sub d e bs cs n2 h2' =>
      cases h1 with
      | keep c1 as bs2 m2 h1' =>
        obtain ⟨k, hk, hac⟩ := ih as bs cs _ _
          (by simp only [List.length_cons] at hlen; omega) h1' h2'
        exact ⟨k + 1, by omega, .sub d e _ _ _ hac⟩
      | sub c1 d1 as bs2 m2 h1' =>
        obtain ⟨k, hk, hac⟩ := ih as bs cs _ _
          (by simp only [List.length_cons] at hlen; omega) h1' h2'
        exact ⟨k + 1, by omega, .sub c1 e _ _ _ hac⟩
      | del c1 as bs2 m2 h1' =>
        obtain ⟨k, hk, hac⟩ := ih as (d :: bs) (e :: cs) _ _
          (by simp only [List.length_cons] at hlen ⊢; omega) h1' (.sub d e _ _ _ h2')
        exact ⟨k + 1, by omega, .del c1 _ _ _ hac⟩
      | ins d1 as bs2 m2 h1' =>
        obtain ⟨k, hk, hac⟩ := ih a bs cs _ _
          (by simp only [List.length_cons] at hlen; omega) h1' h2'
        exact ⟨k + 1, by omega, .ins e _ _ _ hac⟩
    | del d bs cs n2 h2' =>
      cases h1 with
      | keep c1 as bs2 m2 h1' =>
        obtain ⟨k, hk, hac⟩ := ih as bs c _ _
          (by simp only [List.length_cons] at hlen; omega) h1' h2'
        exact ⟨k + 1, by omega, .del d _ _ _ hac⟩
      | sub c1 d1 as bs2 m2 h1' =>
        obtain ⟨k, hk, hac⟩ := ih as bs c _ _
          (by simp only [List.length_cons] at hlen; omega) h1' h2'
        exact ⟨k + 1, by omega, .del c1 _ _ _ hac⟩
      | del c1 as bs2 m2 h1' =>
        obtain ⟨k, hk, hac⟩ := ih as (d :: bs) c _ _
          (by simp only [List.length_cons] at hlen ⊢; omega) h1' (.del d _ _ _ h2')
        exact ⟨k + 1, by omega, .del c1 _ _ _ hac⟩
      | ins d1 as bs2 m2 h1' =>
        obtain ⟨k, hk, hac⟩ := ih a bs c _ _
          (by simp only [List.length_cons] at hlen; omega) h1' h2'
        exact ⟨k, by omega, hac⟩

theorem levRec_triangle (a b c : List Char) :
    levRec a c ≤ levRec a b + levRec b c := by
  obtain ⟨k, hk, hac⟩ :=
    aligns_trans (a.length + b.length + c.length) a b c _ _ le_rfl
      (aligns_levRec a b) (aligns_levRec b c)
  exact le_trans (levRec_le_of_aligns hac) hk

end Tubes3.FuzzyMatching

namespace Tubes3.FuzzyMatching

theorem reverse_take_succ : ∀ (s : List Char) (i : ℕ), i < s.length →
    (s.take (i + 1)).reverse = s.getD i default :: (s.take i).reverse := by
  intro s
  induction s with
  | nil => intro i h; simp at h
  | cons x s ih =>
    intro i h
    cases i with
    | zero => simp
    | succ i =>
      have h' : i < s.length := by simp at h; omega
      simp only [List.take_succ_cons, List.reverse_cons, List.getD_cons_succ, ih i h']
      simp

theorem dpEntry_eq_levRec (s t : List Char) :
    ∀ i j, i ≤ s.length → j ≤ t.length →
      dpEntry s t i j = levRec ((s.take i).reverse) ((t.take j).reverse) := by
  intro i
  induction i with
  | zero =>
    intro j _ hj
    simp only [dpEntry, List.take_zero, List.reverse_nil, levRec_nil_left,
      List.length_reverse, List.length_take]
    omega
  | succ i ihi =>
    intro j hi hj
    revert hj
    induction j with
    | zero =>
      intro _
      have h0 := ihi 0 (by omega) (by omega)
      simp only [dpEntry, dpCell, List.take_zero, List.reverse_nil,
        levRec_nil_right, List.length_reverse, List.length_take] at h0 ⊢
      omega
    | succ j ihj =>
      intro hj
      have e1 := ihi (j + 1) (by omega) hj
      have e2 := ihj (by omega)
      have e3 := ihi j (by omega) (by omega)
      rw [reverse_take_succ t j (by omega)] at e1
      rw [reverse_take_succ s i (by omega)] at e2
      rw [show dpEntry s t (i + 1) = dpCell (dpEntry s t i) (s.getD i default) t
        from rfl]
      rw [show dpCell (dpEntry s t i) (s.getD i default) t (j + 1) =
        min (dpEntry s t i (j + 1) + 1)
          (min (dpCell (dpEntry s t i) (s.getD i default) t j + 1)
            (dpEntry s t i j +
              if s.getD i default = t.getD j default then 0 else 1)) from rfl]
      rw [reverse_take_succ s i (by omega), reverse_take_succ t j (by omega),
        levRec_cons_cons]
      rw [e1, e3]
      rw [show dpCell (dpEntry s t i) (s.getD i default) t j =
        dpEntry s t (i + 1) j from rfl, e2]

theorem calculate_eq_levRec (s1 s2 : String) :
    calculate_levenshtein_distance s1 s2 =
      levRec (lower s1.data).reverse (lower s2.data).reverse := by
  unfold calculate_levenshtein_distance
  rw [dpEntry_eq_levRec _ _ _ _ le_rfl le_rfl, List.take_length, List.take_length]

end Tubes3.FuzzyMatching

/-- C7: `calculate_levenshtein_distance` is a pseudometric on strings:
`distance(a, a) = 0`, `distance(a, b) = distance(b, a)`, the triangle
inequality `distance(a, c) ≤ distance(a, b) + distance(b, c)` holds for any
three strings, and the distance to the empty string is the other string's
length. -/
theorem claim_C7_levenshtein_pseudometric (a b c : String) :
    Tubes3.FuzzyMatching.calculate_levenshtein_distance a a = 0 ∧
    Tubes3.FuzzyMatching.calculate_levenshtein_distance a b =
      Tubes3.FuzzyMatching.calculate_levenshtein_distance b a ∧
    Tubes3.FuzzyMatching.calculate_levenshtein_distance a c ≤
      Tubes3.FuzzyMatching.calculate_levenshtein_distance a b +
      Tubes3.FuzzyMatching.calculate_levenshtein_distance b c ∧
    Tubes3.FuzzyMatching.calculate_levenshtein_distance a "" = a.length ∧
    Tubes3.FuzzyMatching.calculate_levenshtein_distance "" b = b.length := by
  refine ⟨?_, ?_, ?_, ?_, ?_⟩
  · rw [Tubes3.FuzzyMatching.calculate_eq_levRec, Tubes3.FuzzyMatching.levRec_self]
  · rw [Tubes3.FuzzyMatching.calculate_eq_levRec,
      Tubes3.FuzzyMatching.calculate_eq_levRec, Tubes3.FuzzyMatching.levRec_symm]
  · rw [Tubes3.FuzzyMatching.calculate_eq_levRec,
      Tubes3.FuzzyMatching.calculate_eq_levRec,
      Tubes3.FuzzyMatching.calculate_eq_levRec]
    exact Tubes3.FuzzyMatching.levRec_triangle _ _ _
  · rw [Tubes3.FuzzyMatching.calculate_eq_levRec]
    rw [show (Tubes3.FuzzyMatching.lower ("" : String).data).reverse = [] from rfl]
    rw [Tubes3.FuzzyMatching.levRec_nil_right]
    rw [show Tubes3.FuzzyMatching.lower a.data = a.data.map Char.toLower from rfl]
    rw [List.length_reverse, List.length_map]
    rfl
  · rw [Tubes3.FuzzyMatching.calculate_eq_levRec]
    rw [show (Tubes3.FuzzyMatching.lower ("" : String).data).reverse = [] from rfl]
    rw [Tubes3.FuzzyMatching.levRec_nil_left]
    rw [show Tubes3.FuzzyMatching.lower b.data = b.data.map Char.toLower from rfl]
    rw [List.length_reverse, List.length_map]
    rfl

/-- C5: the completion flag set by `update_status` is exactly the old flag
or-ed with `processed >= total && total > 0` — so it turns on precisely when
that condition first holds, and no later call (whatever its arguments)
clears it — and once the flag is set while the stored total is positive,
`get_status` reports `parsed_count = total_count = total` regardless of the
stored (possibly stale) progress value, without another `update_status`. -/
theorem claim_C5_completion_flag (s : Tubes3.CVDataStore.State) (p t : ℤ) :
    ((Tubes3.CVDataStore.update_status s p t).eventSet =
      (s.eventSet || (decide (p ≥ t) && decide (t > 0)))) ∧
    (s.eventSet = true → s.total > 0 →
      (Tubes3.CVDataStore.get_status s).1.parsed_count = s.total ∧
      (Tubes3.CVDataStore.get_status s).1.total_count = s.total ∧
      (Tubes3.CVDataStore.get_status s).1.is_done = true) := by
  constructor
  · rfl
  · intro hd ht
    refine ⟨?_, rfl, hd⟩
    simp [Tubes3.CVDataStore.get_status, hd, ht]

/-- Witness for C5 at a concrete store state with a stale progress value:
the flag is set, `total = 3`, stored progress is only `1`, yet `get_status`
reports `parsed_count = 3`. -/
theorem claim_C5_completion_flag_witness :
    (Tubes3.CVDataStore.get_status ⟨[], 1, 3, true⟩).1.parsed_count = 3 :=
  ((claim_C5_completion_flag ⟨[], 1, 3, true⟩ 0 0).2 rfl (by norm_num)).1

/-- C10: `add_cv` maps the given id to exactly the given path and text —
overwriting whatever entry was previously stored under that id, with no
duplicate rejection and no error — and leaves every other id untouched. -/
theorem claim_C10_add_cv_overwrites (s : Tubes3.CVDataStore.State)
    (id id' : ℕ) (path text : String) :
    Tubes3.dictGet (Tubes3.CVDataStore.add_cv s id path text).cvs id' =
      if id' = id then some ⟨path, some text, none⟩
      else Tubes3.dictGet s.cvs id' :=
  Tubes3.dictGet_dictInsert s.cvs id id' ⟨path, some text, none⟩

namespace Tubes3

/-- Python `s[i]` for an index that is in bounds whenever the interpreter
reaches the access. -/
def charAt (l : List Char) (i : ℕ) : Char := l.getD i default

end Tubes3

namespace Tubes3.KMPAlgorithm

/-- The `while i < m` loop of `_compute_lps_array`, with explicit fuel; the
loop state is the partially-filled `lps` array, the running prefix length
`length` and the index `i`. -/
def lpsLoop (p : List Char) : ℕ → List ℕ → ℕ → ℕ → List ℕ
  | 0, lps, _, _ => lps
  | fuel + 1, lps, len, i =>
    if i < p.length then
      if charAt p i = charAt p len then
        lpsLoop p fuel (lps.set i (len + 1)) (len + 1) (i + 1)
      else
        if len ≠ 0 then
          lpsLoop p fuel lps (lps.getD (len - 1) 0) i
        else
          lpsLoop p fuel (lps.set i 0) 0 (i + 1)
    else lps

/-- Embedding of `KMPAlgorithm._compute_lps_array`.  The fuel `2*m + 1`
dominates the loop's step count (each iteration strictly increases
`2*i - length`, which stays within `[2, 2*m]`). -/
def computeLpsArray (p : List Char) : List ℕ :=
  lpsLoop p (2 * p.length + 1) (List.replicate p.length 0) 0 1

/-- The `while i < n` scan loop of `KMPAlgorithm.count_occurrences`, with
explicit fuel; state is `(i, j, count)`. -/
def kmpLoop (t p : List Char) (lps : List ℕ) : ℕ → ℕ → ℕ → ℕ → ℕ
  | 0, _, _, count => count
  | fuel + 1, i, j, count =>
    if i < t.length then
      let i1 := if charAt p j = charAt t i then i + 1 else i
      let j1 := if charAt p j = charAt t i then j + 1 else j
      if j1 = p.length then
        kmpLoop t p lps fuel i1 (lps.getD (j1 - 1) 0) (count + 1)
      else
        if i1 < t.length ∧ charAt p j1 ≠ charAt t i1 then
          if j1 ≠ 0 then kmpLoop t p lps fuel i1 (lps.getD (j1 - 1) 0) count
          else kmpLoop t p lps fuel (i1 + 1) j1 count
        else kmpLoop t p lps fuel i1 j1 count
    else count

/-- Embedding of `KMPAlgorithm.count_occurrences`.  The fuel `2*n + 1`
dominates the loop's step count (each iteration strictly increases
`2*i - j`, which stays within `[0, 2*n]`). -/
def count_occurrences (text pattern : String) : ℕ :=
  if pattern.length = 0 ∨ text.length = 0 ∨ pattern.length > text.length then 0
  else
    kmpLoop text.data pattern.data (computeLpsArray pattern.data)
      (2 * text.length + 1) 0 0 0

end Tubes3.KMPAlgorithm

namespace Tubes3.BoyerMooreAlgorithm

/-- Embedding of `BoyerMooreAlgorithm._preprocess_bad_character`: a
dictionary mapping each character of the pattern to its last occurrence
index (later writes overwrite earlier ones). -/
def preprocessBadCharacter (p : List Char) : List (Char × ℕ) :=
  p.enum.foldl (fun tbl ic => dictInsert tbl ic.2 ic.1) []

/-- The inner `while j >= 0 and pattern[j] == text[shift + j]` scan,
comparing right to left starting at index `k - 1`: returns `0` when every
index below `k` matches (`j` ran off the left end) and `j + 1` for the
first (highest) mismatching index `j`. -/
def bmScan (t p : List Char) (shift : ℕ) : ℕ → ℕ
  | 0 => 0
  | k + 1 => if charAt p k = charAt t (shift + k) then bmScan t p shift k else k + 1

/-- The outer `while shift <= n - m` loop of
`BoyerMooreAlgorithm.count_occurrences`, with explicit fuel.  On a full
match the shift advances by `m - last_occurrence(text[shift+m])` (or by
`m+1` when that character is absent from the pattern, matching
`m - (-1)`), or by `1` at the right edge of the text; on a mismatch at
index `j` it advances by `max(1, j - last_occurrence(bad_char))`, which is
`j + 1` when the bad character is absent (`j - (-1)`). -/
def bmLoop (t p : List Char) (tbl : List (Char × ℕ)) : ℕ → ℕ → ℕ → ℕ
  | 0, _, count => count
  | fuel + 1, shift, count =>
    if shift ≤ t.length - p.length then
      let r := bmScan t p shift p.length
      if r = 0 then
        let d : ℕ :=
          if shift + p.length < t.length then
            match dictGet tbl (charAt t (shift + p.length)) with
            | some k => p.length - k
            | none => p.length + 1
          else 1
        bmLoop t p tbl fuel (shift + d) (count + 1)
      else
        let j := r - 1
        let d : ℕ :=
          match dictGet tbl (charAt t (shift + j)) with
          | some k => max 1 (j - k)
          | none => j + 1
        bmLoop t p tbl fuel (shift + d) count
    else count

/-- Embedding of `BoyerMooreAlgorithm.count_occurrences`.  The fuel
`n + 2` dominates the loop's step count (the shift strictly increases and
the loop exits once it exceeds `n - m`). -/
def count_occurrences (text pattern : String) : ℕ :=
  if pattern.length = 0 ∨ text.length = 0 ∨ pattern.length > text.length then 0
  else
    bmLoop text.data pattern.data (preprocessBadCharacter pattern.data)
      (text.length + 2) 0 0

end Tubes3.BoyerMooreAlgorithm

namespace Tubes3.AhoCorasickAlgorithm

/-- A node of the Aho-Corasick trie (`TrieNode` in the source).  Python
nodes are heap objects linked by references; here every node is stored in
one list and referenced by its creation index, with index `0` the root. -/
structure TrieNode where
  children : List (Char × ℕ)
  failure : Option ℕ
  output : List ℕ
deriving DecidableEq, Repr

/-- A node with no children, no failure link and no output, as built by
`TrieNode.__init__`. -/
def TrieNode.empty : TrieNode := ⟨[], none, []⟩

/-- Dereference a node index. -/
def getNode (nodes : List TrieNode) (i : ℕ) : TrieNode := nodes.getD i .empty

/-- The `for char in pattern` descent of `_build_trie`: walk existing child
edges and create missing nodes, returning the updated node store and the
index of the node for the full pattern. -/
def insertChars (nodes : List TrieNode) (cur : ℕ) :
    List Char → List TrieNode × ℕ
  | [] => (nodes, cur)
  | c :: rest =>
    match dictGet (getNode nodes cur).children c with
    | some nxt => insertChars nodes nxt rest
    | none =>
      let newIdx := nodes.length
      let nodes1 := nodes ++ [TrieNode.empty]
      let curNode := getNode nodes1 cur
      let nodes2 := nodes1.set cur
        { curNode with children := dictInsert curNode.children c newIdx }
      insertChars nodes2 newIdx rest

/-- One iteration of the `for pattern_idx, pattern in enumerate(patterns)`
loop of `_build_trie`: insert the pattern's path and append the pattern
index to the terminal node's output list. -/
def insertPattern (nodes : List TrieNode) (pidx : ℕ) (p : List Char) :
    List TrieNode :=
  let r := insertChars nodes 0 p
  let nd := getNode r.1 r.2
  r.1.set r.2 { nd with output := nd.output ++ [pidx] }

/-- Embedding of `AhoCorasickAlgorithm._build_trie` starting from a fresh
root (the source resets `self.root = TrieNode()` before building). -/
def buildTrie (patterns : List (List Char)) : List TrieNode :=
  patterns.enum.foldl (fun nodes ip => insertPattern nodes ip.1 ip.2)
    [TrieNode.empty]

/-- The `while failure is not None and char not in failure.children` walk
used both when building failure links and when scanning text, with fuel:
follow failure links until reaching a node with a `c`-child, or `None`. -/
def walkFail (nodes : List TrieNode) (c : Char) : ℕ → Option ℕ → Option ℕ
  | 0, f => f
  | fuel + 1, f =>
    match f with
    | none => none
    | some fi =>
      match dictGet (getNode nodes fi).children c with
      | some _ => some fi
      | none => walkFail nodes c fuel (getNode nodes fi).failure

/-- The body of the `for char, child in current.children.items()` loop of
`_build_failure_links`: find the failure target for `child` (the matching
child of the first ancestor-failure node with a `c`-child, or the root)
and extend the child's output with its failure node's output. -/
def processChild (nodes : List TrieNode) (cur childIdx : ℕ) (c : Char) :
    List TrieNode :=
  let f := walkFail nodes c (nodes.length + 1) (getNode nodes cur).failure
  let childFailure : ℕ :=
    match f with
    | some fi =>
      match dictGet (getNode nodes fi).children c with
      | some target => target
      | none => 0
    | none => 0
  let child := getNode nodes childIdx
  let failNode := getNode nodes childFailure
  nodes.set childIdx
    { child with
      failure := some childFailure
      output := child.output ++ failNode.output }

/-- The `while queue` breadth-first loop of `_build_failure_links`, with
fuel: pop a node, process each of its children and push them. -/
def bfsLoop : ℕ → List TrieNode → List ℕ → List TrieNode
  | 0, nodes, _ => nodes
  | _ + 1, nodes, [] => nodes
  | fuel + 1, nodes, cur :: rest =>
    let step := (getNode nodes cur).children.foldl
      (fun (acc : List TrieNode × List ℕ) cc =>
        (processChild acc.1 cur cc.2 cc.1, acc.2 ++ [cc.2]))
      (nodes, [])
    bfsLoop fuel step.1 (rest ++ step.2)

/-- Embedding of `AhoCorasickAlgorithm._build_failure_links`: the root's
direct children get the root as failure link and seed the queue, then the
breadth-first loop fills in the rest.  Each node is pushed at most once,
so fuel `nodes.length + 1` dominates the loop's step count. -/
def buildFailureLinks (nodes : List TrieNode) : List TrieNode :=
  let rootChildren := (getNode nodes 0).children
  let nodes1 := rootChildren.foldl
    (fun acc cc =>
      let nd := getNode acc cc.2
      acc.set cc.2 { nd with failure := some 0 })
    nodes
  bfsLoop (nodes.length + 1) nodes1 (rootChildren.map fun cc => cc.2)

/-- One character step of `_search_patterns`: follow failure links until a
node with a `c`-child is found (count every pattern index in that child's
output list) or the root is passed (state resets to the root). -/
def searchStep (nodes : List TrieNode) (st : ℕ × List ℕ) (c : Char) :
    ℕ × List ℕ :=
  match walkFail nodes c (nodes.length + 1) (some st.1) with
  | none => (0, st.2)
  | some fi =>
    match dictGet (getNode nodes fi).children c with
    | some nxt =>
      (nxt, (getNode nodes nxt).output.foldl
        (fun cnts pidx => cnts.set pidx (cnts.getD pidx 0 + 1)) st.2)
    | none => (0, st.2)

/-- Embedding of `AhoCorasickAlgorithm._search_patterns`: scan the text
once from the root, returning the per-pattern-index occurrence counts. -/
def searchPatterns (nodes : List TrieNode) (numPatterns : ℕ)
    (text : List Char) : List ℕ :=
  (text.foldl (searchStep nodes) (0, List.replicate numPatterns 0)).2

/-- Embedding of `AhoCorasickAlgorithm.count_occurrences`: guard the
degenerate inputs, build the automaton for the single pattern and return
its count. -/
def count_occurrences (text pattern : String) : ℕ :=
  if pattern.length = 0 ∨ text.length = 0 ∨ pattern.length > text.length then 0
  else
    let nodes := buildFailureLinks (buildTrie [pattern.data])
    (searchPatterns nodes 1 text.data).getD 0 0

/-- Embedding of `AhoCorasickAlgorithm.count_multiple_patterns`: empty
pattern list or empty text maps every pattern to `0`; otherwise the
automaton is built over the valid (nonempty, not over-long) patterns, its
counts are keyed back by pattern string, and every remaining pattern is
filled in with `0`. -/
def count_multiple_patterns (text : String) (patterns : List String) :
    List (String × ℕ) :=
  if patterns = [] ∨ text.length = 0 then
    patterns.foldl (fun acc p => dictInsert acc p 0) []
  else
    let valid := patterns.filter fun p => p.length ≠ 0 ∧ p.length ≤ text.length
    if valid = [] then
      patterns.foldl (fun acc p => dictInsert acc p 0) []
    else
      let nodes := buildFailureLinks (buildTrie (valid.map String.data))
      let counts := searchPatterns nodes valid.length text.data
      let result := valid.enum.foldl
        (fun acc ic => dictInsert acc ic.2 (counts.getD ic.1 0)) []
      patterns.foldl
        (fun acc p => if (dictGet acc p).isSome then acc else dictInsert acc p 0)
        result

end Tubes3.AhoCorasickAlgorithm

namespace Tubes3.PatternMatcherFactory

/-- The closed set of algorithms the factory can instantiate. -/
inductive MatcherKind
  | KMP
  | BM
deriving DecidableEq, Repr

/-- Python `str.upper()`, modelled character-wise. -/
def upper (s : String) : String := String.mk (s.data.map Char.toUpper)

/-- Embedding of `PatternMatcherFactory.get_matcher`: selection by
upper-cased string identifier; an unknown identifier raises
`ValueError(f"Unknown pattern matching algorithm: {algorithm_type}")`,
modelled as `Except.error` carrying the formatted message. -/
def get_matcher (algorithm_type : String) : Except String MatcherKind :=
  if upper algorithm_type = "KMP" then .ok .KMP
  else if upper algorithm_type = "BM" then .ok .BM
  else .error ("Unknown pattern matching algorithm: " ++ algorithm_type)

/-- Dynamic dispatch of `matcher.count_occurrences`. -/
def matcherCount : MatcherKind → String → String → ℕ
  | .KMP => KMPAlgorithm.count_occurrences
  | .BM => BoyerMooreAlgorithm.count_occurrences

end Tubes3.PatternMatcherFactory

namespace Tubes3.SearchService

open Tubes3.PatternMatcherFactory

/-- Python `keywords_str.split(",")`. -/
def splitOnComma : List Char → List Char → List (List Char)
  | [], acc => [acc.reverse]
  | c :: rest, acc =>
    if c = ',' then acc.reverse :: splitOnComma rest []
    else splitOnComma rest (c :: acc)

/-- Python `str.strip()`: drop leading and trailing whitespace. -/
def strip (s : List Char) : List Char :=
  ((s.dropWhile Char.isWhitespace).reverse.dropWhile Char.isWhitespace).reverse

/-- The keyword list `[k.strip().lower() for k in keywords_str.split(",")
if k.strip()]` of `perform_search`. -/
def parseKeywords (s : String) : List String :=
  (splitOnComma s.data []).filterMap fun k =>
    let ks := strip k
    if ks = [] then none else some (String.mk (FuzzyMatching.lower ks))

/-- A value of the `matched_keywords` dictionary: an integer occurrence
count for exact matches, a percentage display string for fuzzy matches. -/
inductive KeywordVal
  | count : ℕ → KeywordVal
  | pct : String → KeywordVal
deriving DecidableEq, Repr

/-- One entry of the `exact_matches` / `fuzzy_matches` dictionaries. -/
structure MatchRec where
  detail_id : ℕ
  cv_path : String
  total_matches : ℕ
  matched_keywords : List (String × KeywordVal)
  match_type : String
deriving DecidableEq, Repr

/-- The `for keyword in keywords` loop of the exact phase: per-keyword
counts (`keyword_counts`, a dict keyed by keyword) and the running total
`total_matches_for_cv` (which sums every loop iteration, also when a
duplicate keyword overwrites its dictionary entry). -/
def exactKeywordCounts (m : MatcherKind) (textStr : String)
    (keywords : List String) : List (String × ℕ) × ℕ :=
  keywords.foldl
    (fun acc kw =>
      let c := matcherCount m textStr kw
      if c > 0 then (dictInsert acc.1 kw c, acc.2 + c) else acc)
    ([], 0)

/-- The exact phase of `perform_search`: scan every stored CV in order,
skip entries whose `flat_text` is missing or empty, and record a dictionary
entry for every CV with a positive total count. -/
def exactPhase (m : MatcherKind) (cvs : List (ℕ × CVDataStore.CVEntry))
    (keywords : List String) : List (ℕ × MatchRec) :=
  cvs.foldl
    (fun acc idcv =>
      let textStr := idcv.2.flatTextD
      if textStr = "" then acc
      else
        let kc := exactKeywordCounts m textStr keywords
        if kc.2 > 0 then
          dictInsert acc idcv.1
            ⟨idcv.1, idcv.2.cv_path, kc.2,
              kc.1.map fun p => (p.1, KeywordVal.count p.2), "exact"⟩
        else acc)
    []

/-- The result-display string `f"{int(score*100)}%"`. -/
def pctString (score : ℚ) : String := toString ⌊score * 100⌋ ++ "%"

/-- The `for keyword in keywords` loop of the fuzzy phase: for every
keyword whose `find_similar_word` call (threshold `0.85`) returns a match,
store `f"{keyword} (~{best_word})"` ↦ `f"{int(score*100)}%"`. -/
def fuzzyKeywordCounts (textStr : String) (keywords : List String) :
    List (String × KeywordVal) :=
  keywords.foldl
    (fun acc kw =>
      match FuzzyMatching.find_similar_word kw textStr (85 / 100) with
      | some bs =>
        let wstr := match bs.1 with
          | some w => w
          | none => "None"
        dictInsert acc (kw ++ " (~" ++ wstr ++ ")") (.pct (pctString bs.2))
      | none => acc)
    []

/-- The documents scanned by the fuzzy phase:
`{k: v for k, v in all_processed_cvs.items() if k not in exact_matches}`. -/
def unmatchedCvs (cvs : List (ℕ × CVDataStore.CVEntry))
    (exact : List (ℕ × MatchRec)) : List (ℕ × CVDataStore.CVEntry) :=
  cvs.filter fun idcv => ¬ (dictGet exact idcv.1).isSome

/-- The fuzzy phase body of `perform_search`: scan the unmatched CVs, skip
entries whose `flat_text` is missing or empty, and record a dictionary
entry (with `total_matches` the number of keyword hits) for every CV with
at least one fuzzy keyword hit. -/
def fuzzyPhase (cvs : List (ℕ × CVDataStore.CVEntry))
    (exact : List (ℕ × MatchRec)) (keywords : List String) :
    List (ℕ × MatchRec) :=
  (unmatchedCvs cvs exact).foldl
    (fun acc idcv =>
      let textStr := idcv.2.flatTextD
      if textStr = "" then acc
      else
        let fkc := fuzzyKeywordCounts textStr keywords
        if fkc ≠ [] then
          dictInsert acc idcv.1 ⟨idcv.1, idcv.2.cv_path, fkc.length, fkc, "fuzzy"⟩
        else acc)
    []

/-- Python `{**fuzzy_matches, **exact_matches}`: start from the fuzzy
dictionary and assign every exact item into it. -/
def mergeDicts (fuzzy exact : List (ℕ × MatchRec)) : List (ℕ × MatchRec) :=
  exact.foldl (fun acc kv => dictInsert acc kv.1 kv.2) fuzzy

/-- Python string comparison `a < b`: lexicographic on code points. -/
def pyStrLt : List Char → List Char → Bool
  | _, [] => false
  | [], _ :: _ => true
  | a :: as, b :: bs =>
    if a.toNat < b.toNat then true
    else if b.toNat < a.toNat then false
    else pyStrLt as bs

/-- Strict comparison of the sort keys `(x["match_type"], x["total_matches"])`
used by `sorted(..., reverse=True)`: Python compares tuples left to right
and strings lexicographically by code point. -/
def rankGt (a b : MatchRec) : Bool :=
  pyStrLt b.match_type.data a.match_type.data ||
    (a.match_type == b.match_type && decide (b.total_matches < a.total_matches))

/-- Stable descending insertion: a later element is placed after every
earlier element whose key is not strictly smaller, exactly reproducing the
order of Python's stable `sorted(..., reverse=True)`. -/
def insertDesc (x : MatchRec) : List MatchRec → List MatchRec
  | [] => [x]
  | y :: ys => if rankGt x y then x :: y :: ys else y :: insertDesc x ys

/-- Python `sorted(values, key=lambda x: (x["match_type"],
x["total_matches"]), reverse=True)` as a stable insertion sort. -/
def pythonSortedRev (l : List MatchRec) : List MatchRec :=
  l.foldl (fun acc x => insertDesc x acc) []

/-- One entry of the final result list, enriched with the applicant data
returned by `_get_applicant_info`. -/
structure FinalRec where
  applicant_id : ℕ
  detail_id : ℕ
  applicant_name : String
  application_role : String
  matched_keywords : List (String × KeywordVal)
  total_matches : ℕ
  match_type : String
  cv_path : String
deriving DecidableEq, Repr

/-- Embedding of `SearchService.perform_search`, parameterised by the
external applicant-lookup collaborator `getApplicantInfo` (the
`_get_applicant_info` helper backed by the injected database manager),
which returns `(applicant_name, application_role, applicant_id)`.  The
returned triple is `(final_results, total_cvs, unmatched_count)` — the
wall-clock `exact_time`/`fuzzy_time` floats of the source are not part of
the model.  The `ValueError` raised by the factory for an unknown
algorithm is caught and turned into the same empty return as the
no-keywords early exit. -/
def perform_search (getApplicantInfo : ℕ → String × String × ℕ)
    (store : CVDataStore.State) (keywords_str algorithm_type : String)
    (num_top_matches : ℕ) : List FinalRec × ℕ × ℕ :=
  let keywords := parseKeywords keywords_str
  if keywords = [] then ([], 0, 0)
  else
    match get_matcher algorithm_type with
    | .error _ => ([], 0, 0)
    | .ok m =>
      let all := CVDataStore.get_all_cvs store
      let exact := exactPhase m all keywords
      let runFuzzy := exact.length < num_top_matches
      let unmatchedCount := if runFuzzy then (unmatchedCvs all exact).length else 0
      let fuzzy := if runFuzzy then fuzzyPhase all exact keywords else []
      let combined := mergeDicts fuzzy exact
      let top := (pythonSortedRev (combined.map Prod.snd)).take num_top_matches
      let final := top.map fun r =>
        let info := getApplicantInfo r.detail_id
        ⟨info.2.2, r.detail_id, info.1, info.2.1, r.matched_keywords,
          r.total_matches, r.match_type, r.cv_path⟩
      (final, all.length, unmatchedCount)

end Tubes3.SearchService

namespace Tubes3.SearchService

/-- Store entry whose `flat_text` contains the keyword `"python"` exactly. -/
def demoEntryExact : Tubes3.CVDataStore.CVEntry := ⟨"p1", none, some "python"⟩

/-- Store entry whose `flat_text` `"pythoxn"` only fuzzy-matches
`"python"` (distance 1, similarity `6/7 ≈ 0.857 ≥ 0.85`, and `"python"`
is not a substring). -/
def demoEntryFuzzy : Tubes3.CVDataStore.CVEntry := ⟨"p2", none, some "pythoxn"⟩

/-- The exact-phase record produced for `demoEntryExact`. -/
def demoRecExact : MatchRec := ⟨1, "p1", 1, [("python", .count 1)], "exact"⟩

/-- The fuzzy-phase record produced for `demoEntryFuzzy`. -/
def demoRecFuzzy : MatchRec :=
  ⟨2, "p2", 1, [("python (~pythoxn)", .pct "85%")], "fuzzy"⟩

theorem wordsOf_pythoxn : Tubes3.FuzzyMatching.wordsOf "pythoxn" = ["pythoxn"] := by
  decide

theorem lev_python_pythoxn :
    Tubes3.FuzzyMatching.calculate_levenshtein_distance "python" "pythoxn" = 1 := by
  decide

theorem maxlen_python_pythoxn : max "python".length "pythoxn".length = 7 := by
  decide

theorem simScore_python_pythoxn :
    Tubes3.FuzzyMatching.simScore "python" "pythoxn" = 6 / 7 := by
  rw [Tubes3.FuzzyMatching.simScore, lev_python_pythoxn, maxlen_python_pythoxn]
  norm_num

theorem find_similar_python_pythoxn :
    Tubes3.FuzzyMatching.find_similar_word "python" "pythoxn" (85 / 100) =
      some (some "pythoxn", 6 / 7) := by
  rw [Tubes3.FuzzyMatching.find_similar_word, wordsOf_pythoxn]
  simp only [List.foldl, Tubes3.FuzzyMatching.scanWord, simScore_python_pythoxn,
    maxlen_python_pythoxn]
  norm_num

theorem pctString_six_sevenths : pctString (6 / 7) = "85%" := by
  rw [pctString, show (⌊(6 / 7 : ℚ) * 100⌋ : ℤ) = 85 by norm_num [Int.floor_eq_iff]]
  rfl

theorem exactPhase_demo :
    exactPhase .KMP [(1, demoEntryExact), (2, demoEntryFuzzy)] ["python"] =
      [(1, demoRecExact)] := by
  decide

theorem fuzzyPhase_demo :
    fuzzyPhase [(1, demoEntryExact), (2, demoEntryFuzzy)] [(1, demoRecExact)]
      ["python"] = [(2, demoRecFuzzy)] := by
  have hum : unmatchedCvs [(1, demoEntryExact), (2, demoEntryFuzzy)]
      [(1, demoRecExact)] = [(2, demoEntryFuzzy)] := by decide
  rw [fuzzyPhase, hum]
  simp only [List.foldl, fuzzyKeywordCounts,
    show demoEntryFuzzy.flatTextD = "pythoxn" from rfl,
    find_similar_python_pythoxn, pctString_six_sevenths]
  decide

end Tubes3.SearchService

/-- C2, evaluated at a failing input: with a two-document store whose first
document exactly contains the query `"python"` and whose second only
fuzzy-matches it, `perform_search` returns the fuzzy record strictly
*before* the exact record.  The sort key is the pair
`(match_type, total_matches)` of a *string* and a count, sorted descending,
and `"fuzzy" > "exact"` lexicographically — so fuzzy records always
outrank exact ones, contradicting the specified ranking. -/
theorem claim_C2_fuzzy_ranked_above_exact :
    ((Tubes3.SearchService.perform_search (fun i => ("n", "r", i))
        ⟨[(1, Tubes3.SearchService.demoEntryExact),
          (2, Tubes3.SearchService.demoEntryFuzzy)], 0, 0, false⟩
        "python" "KMP" 2).1.map
      fun x => (x.detail_id, x.match_type)) = [(2, "fuzzy"), (1, "exact")] := by
  have hkw : Tubes3.SearchService.parseKeywords "python" = ["python"] := by decide
  have hgm : Tubes3.PatternMatcherFactory.get_matcher "KMP" = .ok .KMP := rfl
  simp only [Tubes3.SearchService.perform_search, hkw, hgm,
    Tubes3.CVDataStore.get_all_cvs, Tubes3.SearchService.exactPhase_demo,
    Tubes3.SearchService.fuzzyPhase_demo]
  decide

/-- C3, refuted at a concrete input: `perform_search` with the unknown
algorithm identifier `"FOO"` does not fail — it returns exactly the same
empty success value as a `"KMP"` search over an empty store that finds
nothing, so the caller of `perform_search` cannot distinguish the two
outcomes.  (Wall-clock timings are not part of the model; the error path
returns them as the constant `0.0`.) -/
theorem claim_C3_counterexample :
    Tubes3.SearchService.perform_search (fun i => ("", "", i))
        Tubes3.CVDataStore.State.init "java" "FOO" 5 =
      Tubes3.SearchService.perform_search (fun i => ("", "", i))
        Tubes3.CVDataStore.State.init "java" "KMP" 5 ∧
    Tubes3.SearchService.perform_search (fun i => ("", "", i))
        Tubes3.CVDataStore.State.init "java" "FOO" 5 = ([], 0, 0) :=
  ⟨by decide, by decide⟩

/-- C3 amended: the factory `get_matcher` does raise a typed `ValueError`
naming the unknown identifier before any work begins, but `perform_search`
catches it and returns the empty tuple `([], 0.0, 0.0, 0, 0)` — the same
value as an empty-keyword or empty-store search — so no typed error
reaches the caller of `perform_search`. -/
theorem claim_C3_amended_error_swallowed (alg kwstr : String)
    (store : Tubes3.CVDataStore.State) (topn : ℕ)
    (info : ℕ → String × String × ℕ)
    (h1 : Tubes3.PatternMatcherFactory.upper alg ≠ "KMP")
    (h2 : Tubes3.PatternMatcherFactory.upper alg ≠ "BM") :
    Tubes3.PatternMatcherFactory.get_matcher alg =
      .error ("Unknown pattern matching algorithm: " ++ alg) ∧
    Tubes3.SearchService.perform_search info store kwstr alg topn = ([], 0, 0) := by
  have hgm : Tubes3.PatternMatcherFactory.get_matcher alg =
      .error ("Unknown pattern matching algorithm: " ++ alg) := by
    rw [Tubes3.PatternMatcherFactory.get_matcher, if_neg h1, if_neg h2]
  refine ⟨hgm, ?_⟩
  rw [Tubes3.SearchService.perform_search]
  by_cases hk : Tubes3.SearchService.parseKeywords kwstr = []
  · rw [if_pos hk]
  · rw [if_neg hk, hgm]

/-- Witness for the amended C3 at the identifier `"FOO"`. -/
theorem claim_C3_amended_error_swallowed_witness :
    Tubes3.PatternMatcherFactory.get_matcher "FOO" =
      .error ("Unknown pattern matching algorithm: " ++ "FOO") ∧
    Tubes3.SearchService.perform_search (fun i => ("", "", i))
      Tubes3.CVDataStore.State.init "java" "FOO" 5 = ([], 0, 0) :=
  claim_C3_amended_error_swallowed "FOO" "java" Tubes3.CVDataStore.State.init 5
    (fun i => ("", "", i)) (by decide) (by decide)

/-- C6: each of the three algorithms returns 0 whenever the pattern is
empty, the text is empty, or the pattern is longer than the text — all
three guard exactly these degenerate inputs before doing any work. -/
theorem claim_C6_degenerate_inputs (text pattern : String)
    (h : pattern = "" ∨ text = "" ∨ pattern.length > text.length) :
    Tubes3.KMPAlgorithm.count_occurrences text pattern = 0 ∧
    Tubes3.BoyerMooreAlgorithm.count_occurrences text pattern = 0 ∧
    Tubes3.AhoCorasickAlgorithm.count_occurrences text pattern = 0 := by
  have hg : pattern.length = 0 ∨ text.length = 0 ∨ pattern.length > text.length := by
    rcases h with h | h | h
    · left; rw [h]; rfl
    · right; left; rw [h]; rfl
    · right; right; exact h
  refine ⟨?_, ?_, ?_⟩
  · unfold Tubes3.KMPAlgorithm.count_occurrences
    rw [if_pos hg]
  · unfold Tubes3.BoyerMooreAlgorithm.count_occurrences
    rw [if_pos hg]
  · unfold Tubes3.AhoCorasickAlgorithm.count_occurrences
    rw [if_pos hg]

/-- Witness for C6 with an empty pattern. -/
theorem claim_C6_degenerate_inputs_witness :
    Tubes3.KMPAlgorithm.count_occurrences "abc" "" = 0 ∧
    Tubes3.BoyerMooreAlgorithm.count_occurrences "abc" "" = 0 ∧
    Tubes3.AhoCorasickAlgorithm.count_occurrences "abc" "" = 0 :=
  claim_C6_degenerate_inputs "abc" "" (Or.inl rfl)

namespace Tubes3

theorem mem_dictInsert {κ ν : Type} [DecidableEq κ]
    {l : List (κ × ν)} {k : κ} {v : ν} {q : κ × ν} (h : q ∈ dictInsert l k v) :
    q ∈ l ∨ q = (k, v) := by
  induction l with
  | nil => simp [dictInsert] at h; simp [h]
  | cons hd tl ih =>
    obtain ⟨k₀, v₀⟩ := hd
    by_cases h0 : k₀ = k
    · simp [dictInsert, h0] at h
      rcases h with h | h
      · right; simp [h, h0]
      · left; simp [h]
    · simp [dictInsert, h0] at h
      rcases h with h | h
      · left; simp [h]
      · rcases ih h with h' | h'
        · left; simp [h']
        · right; exact h'

theorem mem_foldl_dictInsert {κ ν : Type} [DecidableEq κ]
    (l : List (κ × ν)) :
    ∀ (acc : List (κ × ν)) (q : κ × ν),
      q ∈ l.foldl (fun a kv => dictInsert a kv.1 kv.2) acc →
      q ∈ acc ∨ q ∈ l := by
  induction l with
  | nil => intro acc q h; exact Or.inl h
  | cons hd tl ih =>
    intro acc q h
    rcases ih (dictInsert acc hd.1 hd.2) q h with h' | h'
    · rcases mem_dictInsert h' with h'' | h''
      · exact Or.inl h''
      · right; simp [h'']
    · right; simp [h']

end Tubes3

namespace Tubes3.SearchService

theorem mem_insertDesc (x : MatchRec) :
    ∀ (l : List MatchRec) (q : MatchRec), q ∈ insertDesc x l ↔ q = x ∨ q ∈ l := by
  intro l
  induction l with
  | nil => intro q; simp [insertDesc]
  | cons y ys ih =>
    intro q
    by_cases h : rankGt x y
    · simp [insertDesc, h]
    · simp [insertDesc, h, ih]
      tauto

theorem mem_pythonSortedRev_aux (l : List MatchRec) :
    ∀ (acc : List MatchRec) (q : MatchRec),
      q ∈ l.foldl (fun acc x => insertDesc x acc) acc → q ∈ acc ∨ q ∈ l := by
  induction l with
  | nil => intro acc q h; exact Or.inl h
  | cons y ys ih =>
    intro acc q h
    rcases ih (insertDesc y acc) q h with h' | h'
    · rcases (mem_insertDesc y acc q).mp h' with h'' | h''
      · right; simp [h'']
      · exact Or.inl h''
    · right; simp [h']

theorem mem_pythonSortedRev {l : List MatchRec} {q : MatchRec}
    (h : q ∈ pythonSortedRev l) : q ∈ l := by
  rcases mem_pythonSortedRev_aux l [] q h with h' | h'
  · simp at h'
  · exact h'

theorem exactPhase_match_type (m : PatternMatcherFactory.MatcherKind)
    (cvs : List (ℕ × CVDataStore.CVEntry)) (keywords : List String) :
    ∀ q ∈ exactPhase m cvs keywords, q.2.match_type = "exact" := by
  rw [exactPhase]
  have main : ∀ (l : List (ℕ × CVDataStore.CVEntry))
      (acc : List (ℕ × MatchRec)),
      (∀ q ∈ acc, q.2.match_type = "exact") →
      ∀ q ∈ l.foldl (fun acc idcv =>
        let textStr := idcv.2.flatTextD
        if textStr = "" then acc
        else
          let kc := exactKeywordCounts m textStr keywords
          if kc.2 > 0 then
            dictInsert acc idcv.1
              ⟨idcv.1, idcv.2.cv_path, kc.2,
                kc.1.map fun p => (p.1, KeywordVal.count p.2), "exact"⟩
          else acc) acc, q.2.match_type = "exact" := by
    intro l
    induction l with
    | nil => intro acc hacc q hq; exact hacc q hq
    | cons hd tl ih =>
      intro acc hacc q hq
      refine ih _ ?_ q hq
      intro q' hq'
      simp only at hq'
      split at hq'
      · exact hacc q' hq'
      · split at hq'
        · rcases mem_dictInsert hq' with h' | h'
          · exact hacc q' h'
          · simp [h']
        · exact hacc q' hq'
  exact main cvs [] (by intro q hq; simp at hq)

end Tubes3.SearchService

namespace Tubes3.SearchService

theorem dictInsert_ne_nil {κ ν : Type} [DecidableEq κ]
    (l : List (κ × ν)) (k : κ) (v : ν) : dictInsert l k v ≠ [] := by
  cases l with
  | nil => simp [dictInsert]
  | cons hd tl =>
    obtain ⟨k₀, v₀⟩ := hd
    by_cases h : k₀ = k <;> simp [dictInsert, h]

theorem find_similar_word_empty_text (kw : String) :
    Tubes3.FuzzyMatching.find_similar_word kw "" (85 / 100) = none := by
  rw [Tubes3.FuzzyMatching.find_similar_word,
    show Tubes3.FuzzyMatching.wordsOf "" = [] from by decide]
  simp only [List.foldl]
  rw [if_neg]
  norm_num

theorem fuzzyKeywordCounts_fold_eq_nil (textStr : String) :
    ∀ (kws : List String) (acc : List (String × KeywordVal)),
      (kws.foldl
        (fun acc kw =>
          match Tubes3.FuzzyMatching.find_similar_word kw textStr (85 / 100) with
          | some bs =>
            let wstr := match bs.1 with
              | some w => w
              | none => "None"
            dictInsert acc (kw ++ " (~" ++ wstr ++ ")") (.pct (pctString bs.2))
          | none => acc) acc) = [] ↔
      acc = [] ∧ ∀ kw ∈ kws,
        Tubes3.FuzzyMatching.find_similar_word kw textStr (85 / 100) = none := by
  intro kws
  induction kws with
  | nil => intro acc; simp
  | cons kw rest ih =>
    intro acc
    simp only [List.foldl]
    cases hfs : Tubes3.FuzzyMatching.find_similar_word kw textStr (85 / 100) with
    | none =>
      rw [ih acc]
      constructor
      · rintro ⟨ha, hall⟩
        refine ⟨ha, ?_⟩
        intro k hk
        rcases List.mem_cons.mp hk with h | h
        · subst h; exact hfs
        · exact hall k h
      · rintro ⟨ha, hall⟩
        exact ⟨ha, fun k hk => hall k (List.mem_cons_of_mem _ hk)⟩
    | some bs =>
      rw [ih _]
      constructor
      · rintro ⟨ha, _⟩
        exact absurd ha (dictInsert_ne_nil _ _ _)
      · rintro ⟨_, hall⟩
        have := hall kw (List.mem_cons_self _ _)
        rw [hfs] at this
        exact absurd this (by simp)

theorem fuzzyKeywordCounts_eq_nil_iff (textStr : String) (kws : List String) :
    fuzzyKeywordCounts textStr kws = [] ↔
      ∀ kw ∈ kws,
        Tubes3.FuzzyMatching.find_similar_word kw textStr (85 / 100) = none := by
  rw [fuzzyKeywordCounts, fuzzyKeywordCounts_fold_eq_nil]
  simp

theorem fuzzyKeywordCounts_empty_text (kws : List String) :
    fuzzyKeywordCounts "" kws = [] := by
  rw [fuzzyKeywordCounts_eq_nil_iff]
  intro kw _
  exact find_similar_word_empty_text kw

theorem mem_unmatchedCvs (cvs : List (ℕ × CVDataStore.CVEntry))
    (exact : List (ℕ × MatchRec)) (id : ℕ) (e : CVDataStore.CVEntry) :
    (id, e) ∈ unmatchedCvs cvs exact ↔
      (id, e) ∈ cvs ∧ dictGet exact id = none := by
  rw [unmatchedCvs, List.mem_filter]
  simp [Option.isSome_iff_exists]

theorem dictGet_fuzzyPhase_fold (keywords : List String) :
    ∀ (l : List (ℕ × CVDataStore.CVEntry)) (acc : List (ℕ × MatchRec)) (id : ℕ),
      (dictGet
        (l.foldl (fun acc idcv =>
          let textStr := idcv.2.flatTextD
          if textStr = "" then acc
          else
            let fkc := fuzzyKeywordCounts textStr keywords
            if fkc ≠ [] then
              dictInsert acc idcv.1 ⟨idcv.1, idcv.2.cv_path, fkc.length, fkc, "fuzzy"⟩
            else acc) acc)
        id).isSome ↔
      (dictGet acc id).isSome ∨
        ∃ e, (id, e) ∈ l ∧ fuzzyKeywordCounts e.flatTextD keywords ≠ [] := by
  intro l
  induction l with
  | nil => intro acc id; simp
  | cons hd tl ih =>
    intro acc id
    obtain ⟨i0, e0⟩ := hd
    simp only [List.foldl]
    rw [ih]
    have step : (dictGet
        (if e0.flatTextD = "" then acc
         else
          if fuzzyKeywordCounts e0.flatTextD keywords ≠ [] then
            dictInsert acc i0
              ⟨i0, e0.cv_path, (fuzzyKeywordCounts e0.flatTextD keywords).length,
                fuzzyKeywordCounts e0.flatTextD keywords, "fuzzy"⟩
          else acc) id).isSome ↔
        (dictGet acc id).isSome ∨
          (id = i0 ∧ fuzzyKeywordCounts e0.flatTextD keywords ≠ []) := by
      by_cases ht : e0.flatTextD = ""
      · rw [if_pos ht, ht]
        simp [fuzzyKeywordCounts_empty_text]
      · rw [if_neg ht]
        by_cases hf : fuzzyKeywordCounts e0.flatTextD keywords ≠ []
        · rw [if_pos hf, dictGet_dictInsert]
          by_cases hid : id = i0
          · simp [hid, hf]
          · simp [hid]
        · rw [if_neg hf]
          simp at hf
          simp [hf]
    rw [step]
    constructor
    · rintro (h | h)
      · rcases h with h | h
        · exact Or.inl h
        · exact Or.inr ⟨e0, by simp [h.1], h.2⟩
      · obtain ⟨e, he, hne⟩ := h
        exact Or.inr ⟨e, by simp [he], hne⟩
    · rintro (h | h)
      · exact Or.inl (Or.inl h)
      · obtain ⟨e, he, hne⟩ := h
        rcases List.mem_cons.mp he with h' | h'
        · have h1 : id = i0 := congrArg Prod.fst h'
          have h2 : e = e0 := congrArg Prod.snd h'
          exact Or.inl (Or.inr ⟨h1, h2 ▸ hne⟩)
        · exact Or.inr ⟨e, h', hne⟩

end Tubes3.SearchService

/-- C4: in a `perform_search` call with usable keywords and a known
algorithm, (1) when the number of exact-matching documents is not below the
requested top-N, every returned record is an exact match (the fuzzy phase
contributes nothing); (2) the reported number of CVs scanned by the fuzzy
phase is the number of non-exact-matching documents when the exact count is
below top-N and `0` otherwise; and (3) a document id appears in the fuzzy
dictionary iff it is a stored document that did not exact-match and at
least one keyword has a `find_similar_word` hit at threshold `0.85` on its
text (documents with empty text can have no hit, so skipping them is
absorbed by this characterisation). -/
theorem claim_C4_fuzzy_phase_conditional
    (info : ℕ → String × String × ℕ) (store : Tubes3.CVDataStore.State)
    (kwstr alg : String) (topn : ℕ)
    (m : Tubes3.PatternMatcherFactory.MatcherKind)
    (hkw : Tubes3.SearchService.parseKeywords kwstr ≠ [])
    (hm : Tubes3.PatternMatcherFactory.get_matcher alg = .ok m) :
    (¬ ((Tubes3.SearchService.exactPhase m store.cvs
          (Tubes3.SearchService.parseKeywords kwstr)).length < topn) →
      ∀ r ∈ (Tubes3.SearchService.perform_search info store kwstr alg topn).1,
        r.match_type = "exact") ∧
    ((Tubes3.SearchService.perform_search info store kwstr alg topn).2.2 =
      if (Tubes3.SearchService.exactPhase m store.cvs
            (Tubes3.SearchService.parseKeywords kwstr)).length < topn then
        (Tubes3.SearchService.unmatchedCvs store.cvs
          (Tubes3.SearchService.exactPhase m store.cvs
            (Tubes3.SearchService.parseKeywords kwstr))).length
      else 0) ∧
    (∀ id : ℕ,
      (Tubes3.dictGet
        (Tubes3.SearchService.fuzzyPhase store.cvs
          (Tubes3.SearchService.exactPhase m store.cvs
            (Tubes3.SearchService.parseKeywords kwstr))
          (Tubes3.SearchService.parseKeywords kwstr)) id).isSome ↔
      ∃ e, (id, e) ∈ store.cvs ∧
        Tubes3.dictGet (Tubes3.SearchService.exactPhase m store.cvs
          (Tubes3.SearchService.parseKeywords kwstr)) id = none ∧
        ∃ kw ∈ Tubes3.SearchService.parseKeywords kwstr,
          Tubes3.FuzzyMatching.find_similar_word kw e.flatTextD (85 / 100) ≠
            none) := by
  refine ⟨?_, ?_, ?_⟩
  · intro hng r hr
    simp only [Tubes3.SearchService.perform_search, if_neg hkw, hm,
      Tubes3.CVDataStore.get_all_cvs, if_neg hng] at hr
    obtain ⟨rec, hrec, rfl⟩ := List.mem_map.mp hr
    have h1 : rec ∈ Tubes3.SearchService.pythonSortedRev
        ((Tubes3.SearchService.mergeDicts []
          (Tubes3.SearchService.exactPhase m store.cvs
            (Tubes3.SearchService.parseKeywords kwstr))).map Prod.snd) :=
      List.mem_of_mem_take hrec
    have h2 := Tubes3.SearchService.mem_pythonSortedRev h1
    obtain ⟨q, hq, hq2⟩ := List.mem_map.mp h2
    have h3 := Tubes3.mem_foldl_dictInsert _ _ _ hq
    rcases h3 with h3 | h3
    · simp at h3
    · have := Tubes3.SearchService.exactPhase_match_type m store.cvs
        (Tubes3.SearchService.parseKeywords kwstr) q h3
      rw [hq2] at this
      exact this
  · simp only [Tubes3.SearchService.perform_search, if_neg hkw, hm,
      Tubes3.CVDataStore.get_all_cvs]
  · intro id
    rw [Tubes3.SearchService.fuzzyPhase,
      Tubes3.SearchService.dictGet_fuzzyPhase_fold]
    simp only [Tubes3.dictGet, Option.isSome_none, Bool.false_eq_true, false_or]
    constructor
    · rintro ⟨e, he, hne⟩
      rw [Tubes3.SearchService.mem_unmatchedCvs] at he
      rw [Ne, Tubes3.SearchService.fuzzyKeywordCounts_eq_nil_iff] at hne
      push_neg at hne
      exact ⟨e, he.1, he.2, hne⟩
    · rintro ⟨e, hmem, hnone, kw, hkw', hfind⟩
      refine ⟨e, (Tubes3.SearchService.mem_unmatchedCvs _ _ _ _).mpr
        ⟨hmem, hnone⟩, ?_⟩
      rw [Ne, Tubes3.SearchService.fuzzyKeywordCounts_eq_nil_iff]
      push_neg
      exact ⟨kw, hkw', hfind⟩

/-- Witness for C4 at the two-document demo store: one exact match, top-N
2, so the fuzzy phase runs over exactly the one unmatched document. -/
theorem claim_C4_fuzzy_phase_conditional_witness :
    (Tubes3.SearchService.perform_search (fun i => ("n", "r", i))
        ⟨[(1, Tubes3.SearchService.demoEntryExact),
          (2, Tubes3.SearchService.demoEntryFuzzy)], 0, 0, false⟩
        "python" "KMP" 2).2.2 =
      if (Tubes3.SearchService.exactPhase .KMP
            [(1, Tubes3.SearchService.demoEntryExact),
             (2, Tubes3.SearchService.demoEntryFuzzy)]
            (Tubes3.SearchService.parseKeywords "python")).length < 2 then
        (Tubes3.SearchService.unmatchedCvs
          [(1, Tubes3.SearchService.demoEntryExact),
           (2, Tubes3.SearchService.demoEntryFuzzy)]
          (Tubes3.SearchService.exactPhase .KMP
            [(1, Tubes3.SearchService.demoEntryExact),
             (2, Tubes3.SearchService.demoEntryFuzzy)]
            (Tubes3.SearchService.parseKeywords "python"))).length
      else 0 :=
  (claim_C4_fuzzy_phase_conditional (fun i => ("n", "r", i))
    ⟨[(1, Tubes3.SearchService.demoEntryExact),
      (2, Tubes3.SearchService.demoEntryFuzzy)], 0, 0, false⟩
    "python" "KMP" 2 .KMP (by decide) rfl).2.1

namespace Tubes3

theorem mem_keyFold {α κ ν : Type} [DecidableEq κ]
    (key : α → κ) (val : α → ν) :
    ∀ (L : List α) (acc : List (κ × ν)) (q : κ × ν),
      q ∈ L.foldl (fun acc x => dictInsert acc (key x) (val x)) acc →
      q ∈ acc ∨ q.1 ∈ L.map key := by
  intro L
  induction L with
  | nil => intro acc q h; exact Or.inl h
  | cons x xs ih =>
    intro acc q h
    rcases ih _ q h with h' | h'
    · rcases mem_dictInsert h' with h'' | h''
      · exact Or.inl h''
      · right; simp [h'']
    · right; simp [h']

theorem dictGet_keyFold_not_mem {α κ ν : Type} [DecidableEq κ]
    (key : α → κ) (val : α → ν) :
    ∀ (L : List α) (acc : List (κ × ν)) (p : κ), p ∉ L.map key →
      dictGet (L.foldl (fun acc x => dictInsert acc (key x) (val x)) acc) p =
        dictGet acc p := by
  intro L
  induction L with
  | nil => intro acc p _; rfl
  | cons x xs ih =>
    intro acc p hp
    simp only [List.map_cons, List.mem_cons] at hp
    push_neg at hp
    rw [List.foldl_cons, ih _ p hp.2, dictGet_dictInsert, if_neg hp.1]

theorem dictGet_keyFold_const_mem {α κ ν : Type} [DecidableEq κ]
    (key : α → κ) (c : ν) :
    ∀ (L : List α) (acc : List (κ × ν)) (p : κ), p ∈ L.map key →
      dictGet (L.foldl (fun acc x => dictInsert acc (key x) c) acc) p =
        some c := by
  intro L
  induction L with
  | nil => intro acc p h; simp at h
  | cons x xs ih =>
    intro acc p hp
    rw [List.foldl_cons]
    by_cases hx : p ∈ xs.map key
    · exact ih _ p hx
    · have hpx : p = key x := by
        simp only [List.map_cons, List.mem_cons] at hp
        tauto
      rw [dictGet_keyFold_not_mem (ν := ν) key (fun _ => c) xs _ p hx,
        dictGet_dictInsert, if_pos hpx]

end Tubes3

namespace Tubes3.AhoCorasickAlgorithm

/-- The final `for pattern in patterns: if pattern not in result:
result[pattern] = 0` loop of `count_multiple_patterns`. -/
theorem fillFold_preserves :
    ∀ (ps : List String) (acc : List (String × ℕ)) (p : String) (v : ℕ),
      dictGet acc p = some v →
      dictGet (ps.foldl
        (fun acc p => if (dictGet acc p).isSome then acc else dictInsert acc p 0)
        acc) p = some v := by
  intro ps
  induction ps with
  | nil => intro acc p v h; exact h
  | cons q rest ih =>
    intro acc p v h
    rw [List.foldl_cons]
    refine ih _ p v ?_
    by_cases hq : (dictGet acc q).isSome
    · rw [if_pos hq]; exact h
    · rw [if_neg hq, dictGet_dictInsert]
      by_cases hpq : p = q
      · subst hpq
        rw [h] at hq
        simp at hq
      · rw [if_neg hpq]; exact h

theorem fillFold_isSome :
    ∀ (ps : List String) (acc : List (String × ℕ)) (p : String), p ∈ ps →
      (dictGet (ps.foldl
        (fun acc p => if (dictGet acc p).isSome then acc else dictInsert acc p 0)
        acc) p).isSome := by
  intro ps
  induction ps with
  | nil => intro acc p h; simp at h
  | cons q rest ih =>
    intro acc p hp
    rw [List.foldl_cons]
    by_cases hr : p ∈ rest
    · exact ih _ p hr
    · have hpq : p = q := by
        rcases List.mem_cons.mp hp with h | h
        · exact h
        · exact absurd h hr
      subst hpq
      cases h : dictGet acc p with
      | some v =>
        simp only [h, Option.isSome_some, if_true]
        rw [fillFold_preserves rest acc p v h]
        rfl
      | none =>
        simp only [h, Option.isSome_none, Bool.false_eq_true, if_false]
        have hins : dictGet (dictInsert acc p 0) p = some 0 := by
          rw [dictGet_dictInsert, if_pos rfl]
        rw [fillFold_preserves rest _ p 0 hins]
        rfl

theorem fillFold_none_or_zero :
    ∀ (ps : List String) (acc : List (String × ℕ)) (p : String),
      (dictGet acc p = none ∨ dictGet acc p = some 0) →
      dictGet (ps.foldl
        (fun acc p => if (dictGet acc p).isSome then acc else dictInsert acc p 0)
        acc) p = none ∨
      dictGet (ps.foldl
        (fun acc p => if (dictGet acc p).isSome then acc else dictInsert acc p 0)
        acc) p = some 0 := by
  intro ps
  induction ps with
  | nil => intro acc p h; exact h
  | cons q rest ih =>
    intro acc p h
    rw [List.foldl_cons]
    refine ih _ p ?_
    by_cases hq : (dictGet acc q).isSome
    · rw [if_pos hq]; exact h
    · rw [if_neg hq, dictGet_dictInsert]
      by_cases hpq : p = q
      · right; rw [if_pos hpq]
      · rw [if_neg hpq]; exact h

theorem fillFold_zero (ps : List String) (acc : List (String × ℕ))
    (p : String) (hp : p ∈ ps) (h : dictGet acc p = none) :
    dictGet (ps.foldl
      (fun acc p => if (dictGet acc p).isSome then acc else dictInsert acc p 0)
      acc) p = some 0 := by
  have hs := fillFold_isSome ps acc p hp
  rcases fillFold_none_or_zero ps acc p (Or.inl h) with h' | h'
  · rw [h'] at hs; simp at hs
  · exact h'

theorem mem_fillFold :
    ∀ (ps : List String) (acc : List (String × ℕ)) (q : String × ℕ),
      q ∈ ps.foldl
        (fun acc p => if (dictGet acc p).isSome then acc else dictInsert acc p 0)
        acc →
      q ∈ acc ∨ q.1 ∈ ps := by
  intro ps
  induction ps with
  | nil => intro acc q h; exact Or.inl h
  | cons x xs ih =>
    intro acc q h
    rcases ih _ q h with h' | h'
    · simp only at h'
      split at h'
      · exact Or.inl h'
      · rcases mem_dictInsert h' with h'' | h''
        · exact Or.inl h''
        · right; simp [h'']
    · right; simp [h']

end Tubes3.AhoCorasickAlgorithm

/-- C9, refuted at a concrete input: querying the duplicated (valid)
pattern list `["ab", "ab"]` against the text `"ab"` yields the map
`{"ab": 1}` — the duplicate pattern is mapped to its actual occurrence
count `1`, not to `0` as the claim states. -/
theorem claim_C9_counterexample :
    Tubes3.AhoCorasickAlgorithm.count_multiple_patterns "ab" ["ab", "ab"] =
      [("ab", 1)] := by
  decide

/-- C9 amended: `count_multiple_patterns` always returns, without crashing,
a map whose keys all come from the given pattern list, in which every given
pattern is present and every empty or longer-than-text pattern is mapped to
`0`; duplicate patterns share a single entry carrying the computed
occurrence count (which need not be `0`). -/
theorem claim_C9_amended_map_contract (text : String) (patterns : List String) :
    (∀ p ∈ patterns, ∃ c,
      Tubes3.dictGet
        (Tubes3.AhoCorasickAlgorithm.count_multiple_patterns text patterns) p =
        some c) ∧
    (∀ p ∈ patterns, (p.length = 0 ∨ p.length > text.length) →
      Tubes3.dictGet
        (Tubes3.AhoCorasickAlgorithm.count_multiple_patterns text patterns) p =
        some 0) ∧
    (∀ q ∈ Tubes3.AhoCorasickAlgorithm.count_multiple_patterns text patterns,
      q.1 ∈ patterns) := by
  refine ⟨?_, ?_, ?_⟩
  · intro p hp
    simp only [Tubes3.AhoCorasickAlgorithm.count_multiple_patterns]
    split
    · refine ⟨0, ?_⟩
      exact Tubes3.dictGet_keyFold_const_mem (fun x => x) 0 patterns [] p
        (by simpa using hp)
    · split
      · refine ⟨0, ?_⟩
        exact Tubes3.dictGet_keyFold_const_mem (fun x => x) 0 patterns [] p
          (by simpa using hp)
      · exact Option.isSome_iff_exists.mp
          (Tubes3.AhoCorasickAlgorithm.fillFold_isSome patterns _ p hp)
  · intro p hp hinv
    have hnv : ∀ (l : List String), p ∉ l.filter
        (fun p => decide (p.length ≠ 0 ∧ p.length ≤ text.length)) := by
      intro l hmem
      have := (List.mem_filter.mp hmem).2
      simp at this
      omega
    simp only [Tubes3.AhoCorasickAlgorithm.count_multiple_patterns]
    split
    · exact Tubes3.dictGet_keyFold_const_mem (fun x => x) 0 patterns [] p
        (by simpa using hp)
    · split
      · exact Tubes3.dictGet_keyFold_const_mem (fun x => x) 0 patterns [] p
          (by simpa using hp)
      · refine Tubes3.AhoCorasickAlgorithm.fillFold_zero patterns _ p hp ?_
        refine Eq.trans
          (Tubes3.dictGet_keyFold_not_mem (fun ic : ℕ × String => ic.2) _ _ [] p ?_)
          rfl
        show p ∉ List.map Prod.snd (List.enum _)
        rw [List.enum_map_snd]
        exact hnv _
  · intro q hq
    simp only [Tubes3.AhoCorasickAlgorithm.count_multiple_patterns] at hq
    split at hq
    · rcases Tubes3.mem_keyFold (fun x => x) (fun _ => 0) patterns [] q hq with h | h
      · simp at h
      · simpa using h
    · split at hq
      · rcases Tubes3.mem_keyFold (fun x => x) (fun _ => 0) patterns [] q hq with h | h
        · simp at h
        · simpa using h
      · rcases Tubes3.AhoCorasickAlgorithm.mem_fillFold patterns _ q hq with h | h
        · rcases Tubes3.mem_keyFold (fun ic : ℕ × String => ic.2) _ _ [] q h
            with h' | h'
          · simp at h'
          · have h'' : q.1 ∈ List.map Prod.snd (List.enum
                (List.filter
                  (fun p => decide (p.length ≠ 0 ∧ p.length ≤ text.length))
                  patterns)) := h'
            rw [List.enum_map_snd] at h''
            exact (List.mem_filter.mp h'').1
        · exact h

/-- Witness for the amended C9: the empty pattern in a mixed query is
mapped to `0`. -/
theorem claim_C9_amended_map_contract_witness :
    Tubes3.dictGet
      (Tubes3.AhoCorasickAlgorithm.count_multiple_patterns "abcab"
        ["ab", "", "abcabx"]) "" = some 0 :=
  (claim_C9_amended_map_contract "abcab" ["ab", "", "abcabx"]).2.1 ""
    (by decide) (Or.inl rfl)

namespace Tubes3.FuzzyMatching

theorem pySplitAux_ne_nil :
    ∀ (s acc : List Char) (w : List Char), w ∈ pySplitAux s acc → w ≠ [] := by
  intro s
  induction s with
  | nil =>
    intro acc w hw
    by_cases h : acc = []
    · simp [pySplitAux, h] at hw
    · simp [pySplitAux, h] at hw
      subst hw
      simpa using h
  | cons c rest ih =>
    intro acc w hw
    by_cases hws : c.isWhitespace
    · by_cases h : acc = []
      · simp [pySplitAux, hws, h] at hw
        exact ih [] w hw
      · simp [pySplitAux, hws, h] at hw
        rcases hw with hw | hw
        · subst hw; simpa using h
        · exact ih [] w hw
    · simp [pySplitAux, hws] at hw
      exact ih (c :: acc) w hw

theorem wordsOf_ne_empty (text : String) : ∀ w ∈ wordsOf text, w ≠ "" := by
  intro w hw
  rw [wordsOf] at hw
  have hw' := List.mem_dedup.mp hw
  obtain ⟨l, hl, rfl⟩ := List.mem_map.mp hw'
  have := pySplitAux_ne_nil _ _ _ hl
  intro hcon
  apply this
  have : (String.mk l).data = ("" : String).data := by rw [hcon]
  simpa using this

theorem scanFold_spec (keyword : String) :
    ∀ (words : List String), (∀ w ∈ words, w ≠ "") →
      ∀ st : Option String × ℚ,
        (words.foldl (scanWord keyword) st = st ∧
          ∀ w ∈ words, simScore keyword w ≤ st.2) ∨
        (∃ w ∈ words,
          words.foldl (scanWord keyword) st = (some w, simScore keyword w) ∧
          st.2 < simScore keyword w ∧
          ∀ w' ∈ words, simScore keyword w' ≤ simScore keyword w) := by
  intro words
  induction words with
  | nil => intro _ st; left; simp
  | cons w ws ih =>
    intro hne st
    have hwne : w ≠ "" := hne w (List.mem_cons_self _ _)
    have hmax : max keyword.length w.length ≠ 0 := by
      intro h
      apply hwne
      have : w.length = 0 := by omega
      cases hw : w.data with
      | nil => cases w; simpa [String.ext_iff] using hw
      | cons c cs =>
        rw [show w.length = w.data.length from rfl, hw] at this
        simp at this
    have hstep : scanWord keyword st w =
        if st.2 < simScore keyword w then (some w, simScore keyword w) else st := by
      rw [scanWord, if_neg hmax]
    by_cases hlt : st.2 < simScore keyword w
    · rw [List.foldl_cons, hstep, if_pos hlt]
      rcases ih (fun x hx => hne x (List.mem_cons_of_mem _ hx))
          (some w, simScore keyword w) with ⟨heq, hall⟩ | ⟨w', hw', heq, hgt, hall⟩
      · right
        refine ⟨w, List.mem_cons_self _ _, heq, hlt, ?_⟩
        intro w' hw'
        rcases List.mem_cons.mp hw' with h | h
        · subst h; exact le_refl _
        · exact hall w' h
      · right
        refine ⟨w', List.mem_cons_of_mem _ hw', heq, lt_trans hlt hgt, ?_⟩
        intro w'' hw''
        rcases List.mem_cons.mp hw'' with h | h
        · subst h; exact le_of_lt hgt
        · exact hall w'' h
    · rw [List.foldl_cons, hstep, if_neg hlt]
      rcases ih (fun x hx => hne x (List.mem_cons_of_mem _ hx)) st
          with ⟨heq, hall⟩ | ⟨w', hw', heq, hgt, hall⟩
      · left
        refine ⟨heq, ?_⟩
        intro w' hw'
        rcases List.mem_cons.mp hw' with h | h
        · subst h; exact le_of_not_lt hlt
        · exact hall w' h
      · right
        refine ⟨w', List.mem_cons_of_mem _ hw', heq, hgt, ?_⟩
        intro w'' hw''
        rcases List.mem_cons.mp hw'' with h | h
        · subst h; exact le_trans (le_of_not_lt hlt) (le_of_lt hgt)
        · exact hall w'' h

end Tubes3.FuzzyMatching

/-- C8: with a positive threshold, `find_similar_word` returns `None` iff
every word of the whitespace-tokenised word set scores below the threshold;
any returned word is a member of the word set achieving the maximal
similarity `1 - distance/max(len(keyword), len(word))`, which is at least
the threshold; a word scoring at least the threshold guarantees a match is
returned; and concretely
`find_similar_word("pythn", "I use python daily", 0.8)` returns
`("python", 1 - 1/6)`. -/
theorem claim_C8_find_similar_word (keyword text : String) (threshold : ℚ)
    (ht : 0 < threshold) :
    (Tubes3.FuzzyMatching.find_similar_word keyword text threshold = none ↔
      ∀ w ∈ Tubes3.FuzzyMatching.wordsOf text,
        Tubes3.FuzzyMatching.simScore keyword w < threshold) ∧
    (∀ w s,
      Tubes3.FuzzyMatching.find_similar_word keyword text threshold =
        some (some w, s) →
      w ∈ Tubes3.FuzzyMatching.wordsOf text ∧
      s = Tubes3.FuzzyMatching.simScore keyword w ∧ threshold ≤ s ∧
      ∀ w' ∈ Tubes3.FuzzyMatching.wordsOf text,
        Tubes3.FuzzyMatching.simScore keyword w' ≤ s) ∧
    ((∃ w ∈ Tubes3.FuzzyMatching.wordsOf text,
        threshold ≤ Tubes3.FuzzyMatching.simScore keyword w) →
      ∃ w s, Tubes3.FuzzyMatching.find_similar_word keyword text threshold =
        some (some w, s)) ∧
    Tubes3.FuzzyMatching.find_similar_word "pythn" "I use python daily"
      (8 / 10) = some (some "python", 1 - 1 / 6) := by
  have hspec := Tubes3.FuzzyMatching.scanFold_spec keyword
    (Tubes3.FuzzyMatching.wordsOf text)
    (Tubes3.FuzzyMatching.wordsOf_ne_empty text) (none, 0)
  refine ⟨?_, ?_, ?_, ?_⟩
  · rw [Tubes3.FuzzyMatching.find_similar_word]
    rcases hspec with ⟨heq, hall⟩ | ⟨w, hw, heq, hgt, hall⟩
    · rw [heq, if_neg (not_le.mpr ht)]
      simp only [true_iff]
      intro w hw
      exact lt_of_le_of_lt (hall w hw) ht
    · rw [heq]
      by_cases hth : threshold ≤ Tubes3.FuzzyMatching.simScore keyword w
      · rw [if_pos hth]
        constructor
        · intro h; exact absurd h (by simp)
        · intro hallw; exact absurd (hallw w hw) (not_lt.mpr hth)
      · rw [if_neg hth]
        constructor
        · intro _ w' hw'
          exact lt_of_le_of_lt (hall w' hw') (not_le.mp hth)
        · intro _; rfl
  · intro w s hfind
    rw [Tubes3.FuzzyMatching.find_similar_word] at hfind
    rcases hspec with ⟨heq, hall⟩ | ⟨w0, hw0, heq, hgt, hall⟩
    · rw [heq] at hfind
      split at hfind <;> simp at hfind
    · rw [heq] at hfind
      split at hfind
      · rename_i hth
        simp only [Option.some.injEq, Prod.mk.injEq] at hfind
        obtain ⟨h1, h2⟩ := hfind
        have hww : w0 = w := by
          cases h1; rfl
        subst hww
        subst h2
        exact ⟨hw0, rfl, hth, hall⟩
      · simp at hfind
  · rintro ⟨w, hw, hth⟩
    rw [Tubes3.FuzzyMatching.find_similar_word]
    rcases hspec with ⟨heq, hall⟩ | ⟨w0, hw0, heq, hgt, hall⟩
    · exact absurd hth (not_le.mpr (lt_of_le_of_lt (hall w hw) ht))
    · rw [heq, if_pos (le_trans hth (hall w hw))]
      exact ⟨w0, _, rfl⟩
  · have hw : Tubes3.FuzzyMatching.wordsOf "I use python daily" =
        ["i", "use", "python", "daily"] := by decide
    have hdi : Tubes3.FuzzyMatching.calculate_levenshtein_distance "pythn" "i" =
        5 := by decide
    have hdu : Tubes3.FuzzyMatching.calculate_levenshtein_distance "pythn" "use" =
        5 := by decide
    have hdp : Tubes3.FuzzyMatching.calculate_levenshtein_distance "pythn"
        "python" = 1 := by decide
    have hdd : Tubes3.FuzzyMatching.calculate_levenshtein_distance "pythn"
        "daily" = 5 := by decide
    have hmi : max "pythn".length "i".length = 5 := by decide
    have hmu : max "pythn".length "use".length = 5 := by decide
    have hmp : max "pythn".length "python".length = 6 := by decide
    have hmd : max "pythn".length "daily".length = 5 := by decide
    have hsi : Tubes3.FuzzyMatching.simScore "pythn" "i" = 0 := by
      rw [Tubes3.FuzzyMatching.simScore, hdi, hmi]; norm_num
    have hsu : Tubes3.FuzzyMatching.simScore "pythn" "use" = 0 := by
      rw [Tubes3.FuzzyMatching.simScore, hdu, hmu]; norm_num
    have hsp : Tubes3.FuzzyMatching.simScore "pythn" "python" = 5 / 6 := by
      rw [Tubes3.FuzzyMatching.simScore, hdp, hmp]; norm_num
    have hsd : Tubes3.FuzzyMatching.simScore "pythn" "daily" = 0 := by
      rw [Tubes3.FuzzyMatching.simScore, hdd, hmd]; norm_num
    rw [Tubes3.FuzzyMatching.find_similar_word, hw]
    simp only [List.foldl, Tubes3.FuzzyMatching.scanWord, hsi, hsu, hsp, hsd,
      hmi, hmu, hmp, hmd]
    norm_num

/-- Witness for C8 at the spec's concrete example (threshold `0.8`). -/
theorem claim_C8_find_similar_word_witness :
    Tubes3.FuzzyMatching.find_similar_word "pythn" "I use python daily"
      (8 / 10) = some (some "python", 1 - 1 / 6) :=
  (claim_C8_find_similar_word "pythn" "I use python daily" (8 / 10)
    (by norm_num)).2.2.2

namespace Tubes3

/-- `pattern` occurs in `text` starting at index `i` (and fits). -/
def matchAt (t p : List Char) (i : ℕ) : Prop :=
  i + p.length ≤ t.length ∧ ∀ j < p.length, charAt t (i + j) = charAt p j

/-- Executable test for `matchAt`. -/
def matchAtB (t p : List Char) (i : ℕ) : Bool :=
  decide (i + p.length ≤ t.length) &&
    (List.range p.length).all fun j => charAt t (i + j) == charAt p j

theorem matchAtB_iff (t p : List Char) (i : ℕ) :
    matchAtB t p i = true ↔ matchAt t p i := by
  rw [matchAtB, matchAt]
  simp [List.all_eq_true]

/-- The number of occurrences of `p` in `t`, every starting position
counted — overlapping occurrences included. -/
def countOccsL (t p : List Char) : ℕ :=
  ((List.range (t.length + 1 - p.length)).filter (matchAtB t p)).length

/-- String-level occurrence count: the common mathematical value the three
exact engines are compared against. -/
def countOccs (text pattern : String) : ℕ := countOccsL text.data pattern.data

theorem charAt_append_left (l l2 : List Char) (j : ℕ) (h : j < l.length) :
    charAt (l ++ l2) j = charAt l j := by
  unfold charAt
  rw [List.getD_append _ _ _ _ h]

theorem charAt_append_self (l : List Char) (x : Char) :
    charAt (l ++ [x]) l.length = x := by
  unfold charAt
  rw [List.getD_append_right _ _ _ _ le_rfl]
  simp

/-- Counting split: if every element of `l` satisfying `P` satisfies
exactly one of `Q`, `R`, the `P`-count is the sum of the two counts. -/
theorem countP_split (l : List ℕ) (P Q R : ℕ → Bool)
    (h : ∀ i ∈ l, (P i = true ↔ Q i = true ∨ R i = true) ∧
      ¬(Q i = true ∧ R i = true)) :
    l.countP P = l.countP Q + l.countP R := by
  induction l with
  | nil => simp
  | cons x xs ih =>
    have hx := h x (List.mem_cons_self _ _)
    have hxs := ih fun i hi => h i (List.mem_cons_of_mem _ hi)
    by_cases hP : P x = true
    · rcases hx.1.mp hP with hQ | hR
      · have hnR : ¬ R x = true := fun hR => hx.2 ⟨hQ, hR⟩
        rw [List.countP_cons_of_pos _ _ hP, List.countP_cons_of_pos _ _ hQ,
          List.countP_cons_of_neg _ _ hnR, hxs]
        omega
      · have hnQ : ¬ Q x = true := fun hQ => hx.2 ⟨hQ, hR⟩
        rw [List.countP_cons_of_pos _ _ hP, List.countP_cons_of_neg _ _ hnQ,
          List.countP_cons_of_pos _ _ hR, hxs]
        omega
    · have hnQ : ¬ Q x = true := fun hQ => hP (hx.1.mpr (Or.inl hQ))
      have hnR : ¬ R x = true := fun hR => hP (hx.1.mpr (Or.inr hR))
      rw [List.countP_cons_of_neg _ _ hP, List.countP_cons_of_neg _ _ hnQ,
        List.countP_cons_of_neg _ _ hnR, hxs]

end Tubes3

namespace Tubes3.BoyerMooreAlgorithm

theorem preprocess_append (l : List Char) (x : Char) :
    preprocessBadCharacter (l ++ [x]) =
      dictInsert (preprocessBadCharacter l) x l.length := by
  unfold preprocessBadCharacter
  rw [List.enum_append, List.foldl_append]
  simp [List.enumFrom]

/-- The bad-character table holds, for each character, its last occurrence
index in the pattern; absent characters do not occur in the pattern. -/
theorem table_spec (p : List Char) (c : Char) :
    (∀ k, dictGet (preprocessBadCharacter p) c = some k →
      k < p.length ∧ charAt p k = c ∧
        ∀ j, k < j → j < p.length → charAt p j ≠ c) ∧
    (dictGet (preprocessBadCharacter p) c = none →
      ∀ j < p.length, charAt p j ≠ c) := by
  induction p using List.reverseRecOn with
  | nil =>
    constructor
    · intro k h
      simp [preprocessBadCharacter, List.enum, dictGet] at h
    · intro _ j hj
      simp at hj
  | append_singleton l x ih =>
    rw [preprocess_append, dictGet_dictInsert]
    by_cases hcx : c = x
    · rw [if_pos hcx]
      constructor
      · intro k h
        have hk : k = l.length := by
          injection h with h'
          exact h'.symm
        subst hk
        refine ⟨by simp, by rw [charAt_append_self, hcx], ?_⟩
        intro j hj1 hj2
        simp at hj2
        omega
      · intro h
        exact absurd h (by simp)
    · rw [if_neg hcx]
      constructor
      · intro k h
        obtain ⟨h1, h2, h3⟩ := ih.1 k h
        refine ⟨by simp; omega, ?_, ?_⟩
        · rw [charAt_append_left _ _ _ h1]
          exact h2
        · intro j hj1 hj2
          simp at hj2
          by_cases hjl : j < l.length
          · rw [charAt_append_left _ _ _ hjl]
            exact h3 j hj1 hjl
          · have hje : j = l.length := by omega
            subst hje
            rw [charAt_append_self]
            exact fun he => hcx he.symm
      · intro h j hj
        simp at hj
        by_cases hjl : j < l.length
        · rw [charAt_append_left _ _ _ hjl]
          exact ih.2 h j hjl
        · have hje : j = l.length := by omega
          subst hje
          rw [charAt_append_self]
          exact fun he => hcx he.symm

theorem bmScan_zero_iff (t p : List Char) (shift : ℕ) :
    ∀ k, bmScan t p shift k = 0 ↔ ∀ j < k, charAt p j = charAt t (shift + j) := by
  intro k
  induction k with
  | zero => simp [bmScan]
  | succ k ih =>
    rw [bmScan]
    by_cases h : charAt p k = charAt t (shift + k)
    · rw [if_pos h, ih]
      constructor
      · intro hall j hj
        rcases Nat.lt_succ_iff_lt_or_eq.mp hj with hj' | hj'
        · exact hall j hj'
        · subst hj'; exact h
      · intro hall j hj
        exact hall j (Nat.lt_succ_of_lt hj)
    · rw [if_neg h]
      constructor
      · intro hcon
        exact absurd hcon (by omega)
      · intro hall
        exact absurd (hall k (Nat.lt_succ_self k)) h

theorem bmScan_succ (t p : List Char) (shift : ℕ) :
    ∀ k r, bmScan t p shift k = r + 1 →
      r < k ∧ charAt p r ≠ charAt t (shift + r) := by
  intro k
  induction k with
  | zero => intro r h; simp [bmScan] at h
  | succ k ih =>
    intro r h
    rw [bmScan] at h
    by_cases hc : charAt p k = charAt t (shift + k)
    · rw [if_pos hc] at h
      obtain ⟨h1, h2⟩ := ih r h
      exact ⟨Nat.lt_succ_of_lt h1, h2⟩
    · rw [if_neg hc] at h
      have hrk : r = k := by omega
      subst hrk
      exact ⟨Nat.lt_succ_self _, hc⟩

end Tubes3.BoyerMooreAlgorithm

namespace Tubes3

/-- Occurrences of `p` in `t` starting at position `s` or later. -/
def countFrom (t p : List Char) (s : ℕ) : ℕ :=
  (List.range (t.length + 1 - p.length)).countP fun i =>
    decide (s ≤ i) && matchAtB t p i

theorem countFrom_zero (t p : List Char) : countFrom t p 0 = countOccsL t p := by
  rw [countFrom, countOccsL, ← List.countP_eq_length_filter]
  apply List.countP_congr
  intro i _
  simp

theorem countFrom_exit (t p : List Char) (s : ℕ)
    (hs : t.length - p.length < s) : countFrom t p s = 0 := by
  rw [countFrom, List.countP_eq_zero]
  intro i hi
  rw [List.mem_range] at hi
  have : ¬ s ≤ i := by omega
  simp [this]

theorem countP_single_pos (s : ℕ) (f : ℕ → Bool) :
    ∀ (l : List ℕ), l.Nodup → s ∈ l →
      l.countP (fun i => decide (i = s) && f i) = if f s then 1 else 0 := by
  intro l
  induction l with
  | nil => intro _ h; simp at h
  | cons x xs ih =>
    intro hnd hmem
    have hnd' := List.nodup_cons.mp hnd
    by_cases hxs : x = s
    · subst hxs
      have hzero : xs.countP (fun i => decide (i = x) && f i) = 0 := by
        rw [List.countP_eq_zero]
        intro a ha
        have : a ≠ x := fun he => hnd'.1 (he ▸ ha)
        simp [this]
      by_cases hf : f x = true
      · rw [List.countP_cons_of_pos _ _ (by simp [hf]), hzero, if_pos hf]
      · rw [List.countP_cons_of_neg _ _ (by simp [hf]), hzero, if_neg hf]
    · have hmem' : s ∈ xs := by
        rcases List.mem_cons.mp hmem with h | h
        · exact absurd h.symm hxs
        · exact h
      rw [List.countP_cons_of_neg _ _ (by simp [hxs]), ih hnd'.2 hmem']

theorem countFrom_step (t p : List Char) (s s' : ℕ) (hss : s < s')
    (hsr : s < t.length + 1 - p.length)
    (hgap : ∀ q, s < q → q < s' → ¬ matchAt t p q) :
    countFrom t p s =
      (if matchAtB t p s then 1 else 0) + countFrom t p s' := by
  rw [countFrom, countFrom]
  rw [countP_split _ _ (fun i => decide (i = s) && matchAtB t p i)
    (fun i => decide (s' ≤ i) && matchAtB t p i) ?_]
  · rw [countP_single_pos s _ _ (List.nodup_range _) (List.mem_range.mpr hsr)]
  · intro i _
    constructor
    · constructor
      · intro h
        simp only [Bool.and_eq_true, decide_eq_true_eq] at h ⊢
        obtain ⟨h1, h2⟩ := h
        by_cases hi : i = s
        · exact Or.inl ⟨hi, h2⟩
        · right
          refine ⟨?_, h2⟩
          by_contra hlt
          exact hgap i (by omega) (by omega) ((matchAtB_iff t p i).mp h2)
      · intro h
        simp only [Bool.and_eq_true, decide_eq_true_eq] at h ⊢
        rcases h with ⟨h1, h2⟩ | ⟨h1, h2⟩
        · exact ⟨by omega, h2⟩
        · exact ⟨by omega, h2⟩
    · rintro ⟨h1, h2⟩
      simp only [Bool.and_eq_true, decide_eq_true_eq] at h1 h2
      omega

end Tubes3

namespace Tubes3.BoyerMooreAlgorithm

theorem bmLoop_eq (t p : List Char) (hm : 0 < p.length)
    (hmn : p.length ≤ t.length) :
    ∀ fuel shift count, t.length + 1 - shift ≤ fuel →
      bmLoop t p (preprocessBadCharacter p) fuel shift count =
        count + countFrom t p shift := by
  intro fuel
  induction fuel with
  | zero =>
    intro shift count h
    rw [show bmLoop t p (preprocessBadCharacter p) 0 shift count = count from rfl,
      countFrom_exit t p shift (by omega)]
    omega
  | succ fuel ih =>
    intro shift count h
    by_cases hguard : shift ≤ t.length - p.length
    case neg =>
      have h1 : bmLoop t p (preprocessBadCharacter p) (fuel + 1) shift count =
          count := by
        simp only [bmLoop, if_neg hguard]
      rw [h1, countFrom_exit t p shift (by omega)]
      omega
    case pos =>
      have hsm : shift + p.length ≤ t.length := by omega
      have hsr : shift < t.length + 1 - p.length := by omega
      simp only [bmLoop, if_pos hguard]
      cases hsc : bmScan t p shift p.length with
      | zero =>
        have hmatch : matchAt t p shift := by
          refine ⟨hsm, fun j hj => ?_⟩
          exact ((bmScan_zero_iff t p shift p.length).mp hsc j hj).symm
        have hmB : matchAtB t p shift = true := (matchAtB_iff t p shift).mpr hmatch
        rw [if_pos rfl]
        by_cases hin : shift + p.length < t.length
        · rw [if_pos hin]
          cases hdg : dictGet (preprocessBadCharacter p)
              (charAt t (shift + p.length)) with
          | some k =>
            obtain ⟨hk1, hk2, hk3⟩ :=
              (table_spec p (charAt t (shift + p.length))).1 k hdg
            have hgap : ∀ q, shift < q → q < shift + (p.length - k) →
                ¬ matchAt t p q := by
              intro q h1 h2 hq
              obtain ⟨hqlen, hqall⟩ := hq
              have hjdx : shift + p.length - q < p.length := by omega
              have heq := hqall (shift + p.length - q) hjdx
              rw [show q + (shift + p.length - q) = shift + p.length by omega]
                at heq
              exact hk3 (shift + p.length - q) (by omega) hjdx heq.symm
            rw [ih (shift + (p.length - k)) (count + 1) (by omega),
              countFrom_step t p shift (shift + (p.length - k)) (by omega) hsr
                hgap, if_pos hmB]
            omega
          | none =>
            have hno := (table_spec p (charAt t (shift + p.length))).2 hdg
            have hgap : ∀ q, shift < q → q < shift + (p.length + 1) →
                ¬ matchAt t p q := by
              intro q h1 h2 hq
              obtain ⟨hqlen, hqall⟩ := hq
              have hjdx : shift + p.length - q < p.length := by omega
              have heq := hqall (shift + p.length - q) hjdx
              rw [show q + (shift + p.length - q) = shift + p.length by omega]
                at heq
              exact hno (shift + p.length - q) hjdx heq.symm
            rw [ih (shift + (p.length + 1)) (count + 1) (by omega),
              countFrom_step t p shift (shift + (p.length + 1)) (by omega) hsr
                hgap, if_pos hmB]
            omega
        · rw [if_neg hin]
          have hgap : ∀ q, shift < q → q < shift + 1 → ¬ matchAt t p q := by
            intro q h1 h2
            omega
          rw [ih (shift + 1) (count + 1) (by omega),
            countFrom_step t p shift (shift + 1) (by omega) hsr hgap, if_pos hmB]
          omega
      | succ r =>
        obtain ⟨hrm, hrne⟩ := bmScan_succ t p shift p.length r hsc
        have hnomatch : ¬ matchAt t p shift := by
          rintro ⟨_, hall⟩
          exact hrne (hall r hrm).symm
        have hmB : matchAtB t p shift = false := by
          rw [← Bool.not_eq_true, matchAtB_iff]
          exact hnomatch
        rw [if_neg (Nat.succ_ne_zero r)]
        simp only [Nat.add_sub_cancel]
        cases hdg : dictGet (preprocessBadCharacter p) (charAt t (shift + r)) with
        | some k =>
          obtain ⟨hk1, hk2, hk3⟩ := (table_spec p (charAt t (shift + r))).1 k hdg
          have hgap : ∀ q, shift < q → q < shift + max 1 (r - k) →
              ¬ matchAt t p q := by
            intro q h1 h2 hq
            obtain ⟨hqlen, hqall⟩ := hq
            by_cases hkr : k < r
            · have h2' : q < shift + (r - k) := by omega
              have hjdx : shift + r - q < p.length := by omega
              have heq := hqall (shift + r - q) hjdx
              rw [show q + (shift + r - q) = shift + r by omega] at heq
              exact hk3 (shift + r - q) (by omega) hjdx heq.symm
            · omega
          rw [ih (shift + max 1 (r - k)) count (by omega),
            countFrom_step t p shift (shift + max 1 (r - k)) (by omega) hsr hgap,
            if_neg (by simp [hmB])]
          omega
        | none =>
          have hno := (table_spec p (charAt t (shift + r))).2 hdg
          have hgap : ∀ q, shift < q → q < shift + (r + 1) → ¬ matchAt t p q := by
            intro q h1 h2 hq
            obtain ⟨hqlen, hqall⟩ := hq
            have hjdx : shift + r - q < p.length := by omega
            have heq := hqall (shift + r - q) hjdx
            rw [show q + (shift + r - q) = shift + r by omega] at heq
            exact hno (shift + r - q) hjdx heq.symm
          rw [ih (shift + (r + 1)) count (by omega),
            countFrom_step t p shift (shift + (r + 1)) (by omega) hsr hgap,
            if_neg (by simp [hmB])]
          omega

/-- Boyer-Moore computes exactly the number of (possibly overlapping)
occurrences, for every nonempty pattern. -/
theorem bm_count_correct (text pattern : String) (hp : pattern ≠ "") :
    count_occurrences text pattern = countOccs text pattern := by
  have hm : 0 < pattern.length := by
    rcases Nat.eq_zero_or_pos pattern.length with h | h
    · exact absurd (String.ext (List.length_eq_zero.mp h)) hp
    · exact h
  rw [count_occurrences]
  by_cases hguard : pattern.length = 0 ∨ text.length = 0 ∨
      pattern.length > text.length
  · rw [if_pos hguard]
    rw [countOccs, countOccsL]
    have e1 : text.data.length = text.length := rfl
    have e2 : pattern.data.length = pattern.length := rfl
    have h0 : text.data.length + 1 - pattern.data.length = 0 := by omega
    rw [h0]
    rfl
  · rw [if_neg hguard]
    push_neg at hguard
    have hm' : 0 < pattern.data.length := hm
    have hmn' : pattern.data.length ≤ text.data.length := hguard.2.2
    have e1 : text.data.length = text.length := rfl
    rw [bmLoop_eq text.data pattern.data hm' hmn' (text.length + 2) 0 0
      (by omega), countFrom_zero]
    rw [Nat.zero_add]
    rfl

end Tubes3.BoyerMooreAlgorithm

namespace Tubes3

/-- `getD` after `set` at the written index. -/
theorem getD_set_self {α : Type} (d v : α) :
    ∀ (l : List α) (i : ℕ), i < l.length → (l.set i v).getD i d = v := by
  intro l
  induction l with
  | nil => intro i h; simp at h
  | cons x xs ih =>
    intro i h
    cases i with
    | zero => rfl
    | succ i => exact ih i (by simp at h; omega)

/-- `getD` after `set` at a different index. -/
theorem getD_set_ne {α : Type} (d v : α) :
    ∀ (l : List α) (i x : ℕ), i ≠ x → (l.set i v).getD x d = l.getD x d := by
  intro l
  induction l with
  | nil => intro i x _; rfl
  | cons a as ih =>
    intro i x h
    cases i with
    | zero =>
      cases x with
      | zero => exact absurd rfl h
      | succ x => rfl
    | succ i =>
      cases x with
      | zero => rfl
      | succ x => exact ih i x (fun he => h (by rw [he]))

/-- `getD` on a mapped range. -/
theorem getD_map_range {α : Type} (f : ℕ → α) (d : α) (n i : ℕ) (h : i < n) :
    ((List.range n).map f).getD i d = f i := by
  have hl : i < ((List.range n).map f).length := by simp [h]
  rw [List.getD_eq_getElem _ d hl]
  simp [h]

/-- Taking one more character appends the character at the old boundary. -/
theorem take_succ_charAt (l : List Char) (j : ℕ) (h : j < l.length) :
    l.take (j + 1) = l.take j ++ [charAt l j] := by
  rw [List.take_succ]
  congr 1
  unfold charAt
  rw [List.getD_eq_getElem l default h]
  simp [List.getElem?_eq_getElem h]

/-- `charAt` below the cut is unchanged by `take`. -/
theorem charAt_take (l : List Char) (n y : ℕ) (hy : y < n) :
    charAt (l.take n) y = charAt l y := by
  by_cases h : y < l.length
  · have h1 : y < (l.take n).length := by
      rw [List.length_take]; omega
    unfold charAt
    rw [List.getD_eq_getElem _ default h1, List.getD_eq_getElem _ default h]
    simp
  · unfold charAt
    rw [List.getD_eq_default _ default (by rw [List.length_take]; omega),
      List.getD_eq_default _ default (by omega)]

/-- `charAt` past the left part of an append reads the right part. -/
theorem charAt_append_right (u v : List Char) (x : ℕ) :
    charAt (u ++ v) (u.length + x) = charAt v x := by
  unfold charAt
  rw [List.getD_append_right _ _ _ _ (by omega)]
  congr 1
  omega

/-- Two suffixes of the same list are suffixes of one another, shorter of
longer. -/
theorem suffix_of_suffix_length_le {u v w : List Char} (h1 : u <:+ w)
    (h2 : v <:+ w) (h : u.length ≤ v.length) : u <:+ v := by
  obtain ⟨a, ha⟩ := h1
  obtain ⟨b, hb⟩ := h2
  have hu : w.drop a.length = u := by rw [← ha]; exact List.drop_left a u
  have hv : w.drop b.length = v := by rw [← hb]; exact List.drop_left b v
  have hw1 : a.length + u.length = w.length := by
    rw [← ha, List.length_append]
  have hw2 : b.length + v.length = w.length := by
    rw [← hb, List.length_append]
  have he : u = v.drop (a.length - b.length) := by
    rw [← hu, ← hv, List.drop_drop]
    congr 1
    omega
  rw [he]
  exact List.drop_suffix _ _

/-- Snoc on both sides of a suffix relation. -/
theorem snoc_suffix_snoc_iff (a b : List Char) (x y : Char) :
    a ++ [x] <:+ b ++ [y] ↔ x = y ∧ a <:+ b := by
  constructor
  · rintro ⟨u, hu⟩
    have hrev := congrArg List.reverse hu
    simp only [List.reverse_append, List.reverse_cons, List.reverse_nil,
      List.nil_append, List.cons_append, List.append_assoc,
      List.singleton_append] at hrev
    obtain ⟨hy, hb⟩ := List.cons.inj hrev
    refine ⟨hy, u, ?_⟩
    have hb' := congrArg List.reverse hb
    simpa using hb'
  · rintro ⟨rfl, u, rfl⟩
    exact ⟨u, by rw [List.append_assoc]⟩

/-- Shorter `take`s of a common extension are suffixes of longer ones. -/
theorem take_suffix_take_of_le (p : List Char) {a b : ℕ} (hab : a ≤ b)
    {w : List Char} (ha : p.take a <:+ w) (hb : p.take b <:+ w) :
    p.take a <:+ p.take b :=
  suffix_of_suffix_length_le ha hb
    (by rw [List.length_take, List.length_take]; omega)

/-- Border extension: a one-longer `take` is a suffix of a one-longer
`take` exactly when the shorter ones align and the border characters
agree. -/
theorem border_extend_iff (p : List Char) {b j : ℕ} (hb : b < p.length)
    (hj : j < p.length) :
    (p.take (b + 1) <:+ p.take (j + 1)) ↔
      (charAt p b = charAt p j ∧ p.take b <:+ p.take j) := by
  rw [take_succ_charAt p b hb, take_succ_charAt p j hj, snoc_suffix_snoc_iff]

/-- A pointwise character agreement turns a window of `t` into an append
of a prefix of `p`. -/
theorem take_add_eq_append (t p : List Char) (d : ℕ) :
    ∀ k, d + k ≤ t.length → k ≤ p.length →
      (∀ x < k, charAt t (d + x) = charAt p x) →
      t.take (d + k) = t.take d ++ p.take k := by
  intro k
  induction k with
  | zero => intro _ _ _; simp
  | succ k ih =>
    intro hdk hk h
    have e : d + (k + 1) = (d + k) + 1 := by omega
    rw [e, take_succ_charAt t (d + k) (by omega),
      ih (by omega) (by omega) (fun x hx => h x (by omega)),
      h k (by omega), take_succ_charAt p k (by omega), List.append_assoc]

/-- An occurrence makes every prefix of the pattern a suffix of the
corresponding prefix of the text. -/
theorem suffix_take_of_matchAt {t p : List Char} {s : ℕ} (h : matchAt t p s)
    {k : ℕ} (hk : k ≤ p.length) : p.take k <:+ t.take (s + k) :=
  ⟨t.take s, (take_add_eq_append t p s k (by have := h.1; omega) hk
    (fun x hx => h.2 x (by omega))).symm⟩

/-- An occurrence makes the whole pattern a suffix of the text prefix it
ends in. -/
theorem suffix_full_of_matchAt {t p : List Char} {s : ℕ} (h : matchAt t p s) :
    p <:+ t.take (s + p.length) := by
  have h2 := suffix_take_of_matchAt h (le_refl p.length)
  rwa [List.take_length p] at h2

/-- Characters under a prefix-of-pattern suffix of a prefix-of-text. -/
theorem charAt_of_take_suffix (t p : List Char) (i k : ℕ) (hki : k ≤ i)
    (hit : i ≤ t.length) (hkp : k ≤ p.length) (h : p.take k <:+ t.take i) :
    ∀ x < k, charAt t (i - k + x) = charAt p x := by
  obtain ⟨u, hu⟩ := h
  have hlt : (t.take i).length = i := by rw [List.length_take]; omega
  have hlp : (p.take k).length = k := by rw [List.length_take]; omega
  have hlu : u.length = i - k := by
    have h2 := congrArg List.length hu
    rw [hlt, List.length_append, hlp] at h2
    omega
  intro x hx
  calc charAt t (i - k + x) = charAt (t.take i) (i - k + x) :=
        (charAt_take t i (i - k + x) (by omega)).symm
    _ = charAt (u ++ p.take k) (i - k + x) := by rw [hu]
    _ = charAt (u ++ p.take k) (u.length + x) := by rw [hlu]
    _ = charAt (p.take k) x := charAt_append_right u (p.take k) x
    _ = charAt p x := charAt_take p k x hx

/-- A full-pattern suffix of a text prefix is an occurrence ending there. -/
theorem matchAt_of_suffix_take {t p : List Char} {i : ℕ} (h : p <:+ t.take i)
    (hpi : p.length ≤ i) (hit : i ≤ t.length) :
    matchAt t p (i - p.length) := by
  refine ⟨by omega, ?_⟩
  have h' : p.take p.length <:+ t.take i := by
    rw [List.take_length p]; exact h
  exact charAt_of_take_suffix t p i p.length hpi hit (le_refl _) h'

end Tubes3

namespace Tubes3

/-- The longest proper border of `p.take j`: the greatest `b ≤ j - 1` such
that `p.take b` is a suffix of `p.take j`.  This is the value KMP's `lps`
array stores (at index `j - 1`) and the depth the Aho-Corasick failure
link of the depth-`j` node points to. -/
def pb (p : List Char) (j : ℕ) : ℕ :=
  Nat.findGreatest (fun b => p.take b <:+ p.take j) (j - 1)

theorem pb_le (p : List Char) (j : ℕ) : pb p j ≤ j - 1 := Nat.findGreatest_le _

theorem pb_lt (p : List Char) {j : ℕ} (hj : 0 < j) : pb p j < j := by
  have := pb_le p j
  omega

theorem pb_suffix (p : List Char) (j : ℕ) : p.take (pb p j) <:+ p.take j := by
  have key : ∀ (P : ℕ → Prop) [DecidablePred P], P 0 →
      P (Nat.findGreatest P (j - 1)) := fun P _ h =>
    Nat.findGreatest_spec (Nat.zero_le (j - 1)) h
  have h0 : p.take 0 <:+ p.take j := by
    rw [List.take_zero]
    exact List.nil_suffix
  exact key (fun b => p.take b <:+ p.take j) h0

theorem pb_greatest (p : List Char) {j b : ℕ} (hb : b < j)
    (h : p.take b <:+ p.take j) : b ≤ pb p j :=
  Nat.le_findGreatest (by omega) h

theorem pb_one (p : List Char) : pb p 1 = 0 := rfl

/-- Every proper border is bounded by, and a border of, the longest one. -/
theorem border_to_pb (p : List Char) {j b : ℕ} (hb : b < j)
    (h : p.take b <:+ p.take j) :
    b ≤ pb p j ∧ p.take b <:+ p.take (pb p j) :=
  ⟨pb_greatest p hb h,
   take_suffix_take_of_le p (pb_greatest p hb h) h (pb_suffix p j)⟩

/-- Occurrences of `p` in `t` that end within the first `i` characters. -/
def countEnd (t p : List Char) (i : ℕ) : ℕ :=
  (List.range (t.length + 1 - p.length)).countP fun s =>
    matchAtB t p s && decide (s + p.length ≤ i)

theorem countEnd_zero (t p : List Char) (hm : 0 < p.length) :
    countEnd t p 0 = 0 := by
  rw [countEnd, List.countP_eq_zero]
  intro s _
  simp only [Bool.and_eq_true, decide_eq_true_eq]
  rintro ⟨_, h2⟩
  omega

theorem countEnd_full (t p : List Char) :
    countEnd t p t.length = countOccsL t p := by
  rw [countEnd, countOccsL, ← List.countP_eq_length_filter]
  apply List.countP_congr
  intro s hs
  rw [List.mem_range] at hs
  have h2 : s + p.length ≤ t.length := by omega
  simp [h2]

theorem countEnd_succ_pos (t p : List Char) (i : ℕ) (hm : p.length ≤ i + 1)
    (hin : i < t.length) (hmatch : matchAt t p (i + 1 - p.length)) :
    countEnd t p (i + 1) = countEnd t p i + 1 := by
  rw [countEnd, countEnd,
    countP_split _ _ (fun s => matchAtB t p s && decide (s + p.length ≤ i))
      (fun s => matchAtB t p s && decide (s + p.length = i + 1)) ?_]
  · have hcong : (List.range (t.length + 1 - p.length)).countP
        (fun s => matchAtB t p s && decide (s + p.length = i + 1)) =
        (List.range (t.length + 1 - p.length)).countP
        (fun s => decide (s = i + 1 - p.length) && matchAtB t p s) := by
      apply List.countP_congr
      intro s _
      by_cases he : s + p.length = i + 1
      · have h3 : s = i + 1 - p.length := by omega
        subst h3
        simp [he]
      · have h3 : ¬ s = i + 1 - p.length := by omega
        simp [he, h3]
    rw [hcong, countP_single_pos _ _ _ (List.nodup_range _)
        (List.mem_range.mpr (by omega)),
      if_pos ((matchAtB_iff t p (i + 1 - p.length)).mpr hmatch)]
  · intro s _
    constructor
    · constructor
      · intro h
        simp only [Bool.and_eq_true, decide_eq_true_eq] at h ⊢
        obtain ⟨h1, h2⟩ := h
        by_cases he : s + p.length ≤ i
        · exact Or.inl ⟨h1, he⟩
        · exact Or.inr ⟨h1, by omega⟩
      · intro h
        simp only [Bool.and_eq_true, decide_eq_true_eq] at h ⊢
        rcases h with ⟨h1, h2⟩ | ⟨h1, h2⟩
        · exact ⟨h1, by omega⟩
        · exact ⟨h1, by omega⟩
    · rintro ⟨h1, h2⟩
      simp only [Bool.and_eq_true, decide_eq_true_eq] at h1 h2
      omega

theorem countEnd_succ_neg (t p : List Char) (i : ℕ)
    (h : ¬ (p.length ≤ i + 1 ∧ matchAt t p (i + 1 - p.length))) :
    countEnd t p (i + 1) = countEnd t p i := by
  rw [countEnd, countEnd]
  apply List.countP_congr
  intro s hs
  rw [List.mem_range] at hs
  by_cases hb : matchAtB t p s
  · have hmm := (matchAtB_iff t p s).mp hb
    have hne : s + p.length ≠ i + 1 := by
      intro he
      refine h ⟨by omega, ?_⟩
      have h3 : s = i + 1 - p.length := by omega
      exact h3 ▸ hmm
    have h1 : (s + p.length ≤ i + 1) ↔ (s + p.length ≤ i) := by omega
    simp [hb, h1]
  · simp only [Bool.not_eq_true] at hb
    simp [hb]

end Tubes3

namespace Tubes3.KMPAlgorithm

/-- Main invariant proof for the lps-building loop: at every loop head,
`length` is a border of `p.take i` all of whose extensions by `p[i]` have
already been ruled out above `length`, and the array is correct below `i`;
the final array holds the longest proper border of every prefix. -/
theorem lpsLoop_correct (p : List Char) :
    ∀ (fuel i len : ℕ) (lps : List ℕ),
      i ≤ p.length →
      2 * p.length + 1 + len ≤ fuel + 2 * i →
      len < i →
      p.take len <:+ p.take i →
      (∀ b, len < b → b < i → p.take b <:+ p.take i →
        charAt p b ≠ charAt p i) →
      lps.length = p.length →
      (∀ x, x < i → x < p.length → lps.getD x 0 = pb p (x + 1)) →
      ∀ x, x < p.length → (lpsLoop p fuel lps len i).getD x 0 = pb p (x + 1) := by
  intro fuel
  induction fuel with
  | zero =>
    intro i len lps hi hfuel hlen _ _ _ _ x hx
    exfalso
    omega
  | succ fuel ih =>
    intro i len lps hi hfuel hlen hsuf hmax hlps hprev x hx
    rw [lpsLoop]
    by_cases hilt : i < p.length
    · rw [if_pos hilt]
      by_cases hc : charAt p i = charAt p len
      · rw [if_pos hc]
        have hlm : len < p.length := by omega
        have hext : p.take (len + 1) <:+ p.take (i + 1) :=
          (border_extend_iff p hlm hilt).mpr ⟨hc.symm, hsuf⟩
        have hpbval : pb p (i + 1) = len + 1 := by
          have hle : len + 1 ≤ pb p (i + 1) :=
            pb_greatest p (by omega) hext
          have hge : pb p (i + 1) ≤ len + 1 := by
            by_contra hgt
            push_neg at hgt
            have hb' : p.take (pb p (i+1)) <:+ p.take (i+1) :=
              pb_suffix p (i+1)
            have hblt : pb p (i + 1) < i + 1 := pb_lt p (by omega)
            have he : pb p (i+1) - 1 + 1 = pb p (i+1) := by omega
            rw [← he] at hb'
            have hdec := (border_extend_iff p (by omega) hilt).mp hb'
            exact hmax (pb p (i+1) - 1) (by omega) (by omega) hdec.2 hdec.1
          omega
        refine ih (i+1) (len+1) (lps.set i (len+1)) (by omega) (by omega)
          (by omega) hext ?_ (by rw [List.length_set]; exact hlps) ?_ x hx
        · intro b h1 h2 h3 _
          have := pb_greatest p (show b < i + 1 by omega) h3
          omega
        · intro y hy1 hy2
          by_cases hyi : y = i
          · subst hyi
            rw [getD_set_self _ _ _ _ (by rw [hlps]; exact hilt)]
            exact hpbval.symm
          · rw [getD_set_ne _ _ _ _ _ (fun he => hyi he.symm)]
            exact hprev y (by omega) hy2
      · rw [if_neg hc]
        by_cases hlz : len ≠ 0
        · rw [if_pos hlz]
          have hl1 : 0 < len := Nat.pos_of_ne_zero hlz
          have hval : lps.getD (len - 1) 0 = pb p len := by
            have h2 := hprev (len - 1) (by omega) (by omega)
            rw [h2]
            congr 1
            omega
          rw [hval]
          have hpblt := pb_lt p hl1
          refine ih i (pb p len) lps hi (by omega) (by omega)
            ((pb_suffix p len).trans hsuf) ?_ hlps hprev x hx
          intro b h1 h2 h3
          by_cases hbl : b = len
          · subst hbl
            exact fun he => hc he.symm
          · by_cases hbgt : len < b
            · exact hmax b hbgt h2 h3
            · intro _
              have hbsuf : p.take b <:+ p.take len :=
                take_suffix_take_of_le p (by omega) h3 hsuf
              have := pb_greatest p (show b < len by omega) hbsuf
              omega
        · rw [if_neg hlz]
          push_neg at hlz
          subst hlz
          have hpb0 : pb p (i + 1) = 0 := by
            by_contra hne
            have hpos : 0 < pb p (i+1) := Nat.pos_of_ne_zero hne
            have hb' : p.take (pb p (i+1)) <:+ p.take (i+1) :=
              pb_suffix p (i+1)
            have hblt : pb p (i + 1) < i + 1 := pb_lt p (by omega)
            have he : pb p (i+1) - 1 + 1 = pb p (i+1) := by omega
            rw [← he] at hb'
            have hdec := (border_extend_iff p (by omega) hilt).mp hb'
            by_cases h0 : pb p (i+1) - 1 = 0
            · rw [h0] at hdec
              exact hc hdec.1.symm
            · exact hmax (pb p (i+1) - 1) (by omega) (by omega) hdec.2 hdec.1
          refine ih (i+1) 0 (lps.set i 0) (by omega) (by omega) (by omega)
            (by rw [List.take_zero]; exact List.nil_suffix) ?_
            (by rw [List.length_set]; exact hlps) ?_ x hx
          · intro b h1 h2 h3 _
            have := pb_greatest p (show b < i + 1 by omega) h3
            omega
          · intro y hy1 hy2
            by_cases hyi : y = i
            · subst hyi
              rw [getD_set_self _ _ _ _ (by rw [hlps]; exact hilt)]
              exact hpb0.symm
            · rw [getD_set_ne _ _ _ _ _ (fun he => hyi he.symm)]
              exact hprev y (by omega) hy2
    · rw [if_neg hilt]
      exact hprev x (by omega) hx

theorem getD_replicate_zero : ∀ (n i : ℕ), (List.replicate n (0:ℕ)).getD i 0 = 0 := by
  intro n
  induction n with
  | zero => intro i; rfl
  | succ n ih =>
    intro i
    cases i with
    | zero => rfl
    | succ i => exact ih i

/-- `_compute_lps_array` returns, at index `x`, the length of the longest
proper border of `p.take (x+1)`. -/
theorem computeLpsArray_correct (p : List Char) :
    ∀ x, x < p.length → (computeLpsArray p).getD x 0 = pb p (x + 1) := by
  intro x hx
  rw [computeLpsArray]
  refine lpsLoop_correct p (2 * p.length + 1) 1 0 (List.replicate p.length 0)
    (by omega) (by omega) (by omega)
    (by rw [List.take_zero]; exact List.nil_suffix)
    (fun b h1 h2 _ _ => by omega)
    (by rw [List.length_replicate])
    ?_ x hx
  intro y hy1 hy2
  have hy : y = 0 := by omega
  subst hy
  rw [getD_replicate_zero]
  exact (pb_one p).symm

end Tubes3.KMPAlgorithm

namespace Tubes3.KMPAlgorithm

/-- Main invariant proof for the KMP scan loop: at every loop head `j` is a
border-length of the processed text prefix, `count` counts the occurrences
that already ended, and no unfinished occurrence starts before `i - j`. -/
theorem kmpLoop_eq (t p : List Char) (lps : List ℕ) (hm : 0 < p.length)
    (hlps : ∀ x, x < p.length → lps.getD x 0 = pb p (x + 1)) :
    ∀ (fuel i j count : ℕ),
      i ≤ t.length →
      j < p.length →
      j ≤ i →
      2 * t.length + 1 + j ≤ fuel + 2 * i →
      p.take j <:+ t.take i →
      (∀ s, matchAt t p s → i < s + p.length → i ≤ s + j) →
      count = countEnd t p i →
      kmpLoop t p lps fuel i j count = countEnd t p t.length := by
  intro fuel
  induction fuel with
  | zero =>
    intro i j count hi hj hji hfuel _ _ _
    exfalso
    omega
  | succ fuel ih =>
    intro i j count hi hj hji hfuel hsuf hcross hcount
    by_cases hin : i < t.length
    · by_cases hc : charAt p j = charAt t i
      · simp only [kmpLoop, if_pos hin, if_pos hc]
        have hsuf1 : p.take (j + 1) <:+ t.take (i + 1) := by
          rw [take_succ_charAt p j hj, take_succ_charAt t i hin]
          exact (snoc_suffix_snoc_iff _ _ _ _).mpr ⟨hc, hsuf⟩
        by_cases hj1 : j + 1 = p.length
        · rw [if_pos hj1]
          have hfull : p <:+ t.take (i + 1) := by
            have h2 := hsuf1
            rw [hj1, List.take_length p] at h2
            exact h2
          have hmle : p.length ≤ i + 1 := by omega
          have hocc : matchAt t p (i + 1 - p.length) :=
            matchAt_of_suffix_take hfull hmle (by omega)
          have hval : lps.getD (j + 1 - 1) 0 = pb p p.length := by
            have he : j + 1 - 1 = j := by omega
            rw [he, hlps j hj, hj1]
          rw [hval]
          have hpble := pb_le p p.length
          refine ih (i+1) (pb p p.length) (count + 1) (by omega)
            (pb_lt p hm) (by omega) (by omega) ?_ ?_ ?_
          · have hs2 : p.take (pb p p.length) <:+ p := by
              have h2 := pb_suffix p p.length
              rwa [List.take_length p] at h2
            exact hs2.trans hfull
          · intro s hs hlt
            by_cases hsge : i + 1 ≤ s
            · omega
            · push_neg at hsge
              have hkm : i + 1 - s < p.length := by omega
              have hsfx : p.take (i + 1 - s) <:+ t.take (i + 1) := by
                have h2 := suffix_take_of_matchAt hs (le_of_lt hkm)
                rw [show s + (i + 1 - s) = i + 1 by omega] at h2
                exact h2
              have hbord : p.take (i + 1 - s) <:+ p.take p.length :=
                take_suffix_take_of_le p (by omega) hsfx
                  (by rw [List.take_length p]; exact hfull)
              have := pb_greatest p hkm hbord
              omega
          · rw [countEnd_succ_pos t p i hmle hin hocc, hcount]
        · rw [if_neg hj1]
          have hj1m : j + 1 < p.length := by omega
          have hcross1 : ∀ s, matchAt t p s → i + 1 < s + p.length →
              i + 1 ≤ s + (j + 1) := by
            intro s hs hlt
            have := hcross s hs (by omega)
            omega
          have hnoend : ¬ (p.length ≤ i + 1 ∧
              matchAt t p (i + 1 - p.length)) := by
            rintro ⟨hle, hocc⟩
            have h2 := hcross (i + 1 - p.length) hocc (by omega)
            omega
          have hcount1 : count = countEnd t p (i + 1) := by
            rw [countEnd_succ_neg t p i hnoend]
            exact hcount
          by_cases hif : i + 1 < t.length ∧ charAt p (j + 1) ≠ charAt t (i + 1)
          · rw [if_pos hif, if_pos (by omega : j + 1 ≠ 0)]
            have hval : lps.getD (j + 1 - 1) 0 = pb p (j + 1) := by
              have he : j + 1 - 1 = j := by omega
              rw [he, hlps j hj]
            rw [hval]
            have hpble : pb p (j + 1) ≤ j := by
              have := pb_le p (j + 1)
              omega
            refine ih (i+1) (pb p (j + 1)) count (by omega) (by omega)
              (by omega) (by omega) ((pb_suffix p (j+1)).trans hsuf1) ?_
              hcount1
            intro s hs hlt
            by_cases hsge : i + 1 ≤ s
            · omega
            · push_neg at hsge
              have hkle : i + 1 - s ≤ j + 1 := by
                have := hcross1 s hs hlt
                omega
              have hkne : i + 1 - s ≠ j + 1 := by
                intro he
                have hse : s + (j + 1) = i + 1 := by omega
                have h3 := hs.2 (j + 1) hj1m
                rw [hse] at h3
                exact hif.2 h3.symm
              have hsfx : p.take (i + 1 - s) <:+ t.take (i + 1) := by
                have h2 := suffix_take_of_matchAt hs
                  (by omega : i + 1 - s ≤ p.length)
                rw [show s + (i + 1 - s) = i + 1 by omega] at h2
                exact h2
              have hbord : p.take (i + 1 - s) <:+ p.take (j + 1) :=
                take_suffix_take_of_le p (by omega) hsfx hsuf1
              have := pb_greatest p (by omega) hbord
              omega
          · rw [if_neg hif]
            exact ih (i+1) (j+1) count (by omega) hj1m (by omega) (by omega)
              hsuf1 hcross1 hcount1
      · simp only [kmpLoop, if_pos hin, if_neg hc]
        rw [if_neg (by omega : ¬ j = p.length), if_pos ⟨hin, hc⟩]
        by_cases hjz : j ≠ 0
        · rw [if_pos hjz]
          have hj0 : 0 < j := Nat.pos_of_ne_zero hjz
          have hval : lps.getD (j - 1) 0 = pb p j := by
            have h2 := hlps (j - 1) (by omega)
            rw [h2]
            congr 1
            omega
          rw [hval]
          have hpblt := pb_lt p hj0
          refine ih i (pb p j) count hi (by omega) (by omega) (by omega)
            ((pb_suffix p j).trans hsuf) ?_ hcount
          intro s hs hlt
          by_cases hsge : i ≤ s
          · omega
          · push_neg at hsge
            have hkle : i - s ≤ j := by
              have := hcross s hs hlt
              omega
            have hkne : i - s ≠ j := by
              intro he
              have hse : s + j = i := by omega
              have h3 := hs.2 j hj
              rw [hse] at h3
              exact hc h3.symm
            have hsfx : p.take (i - s) <:+ t.take i := by
              have h2 := suffix_take_of_matchAt hs
                (by omega : i - s ≤ p.length)
              rw [show s + (i - s) = i by omega] at h2
              exact h2
            have hbord : p.take (i - s) <:+ p.take j :=
              take_suffix_take_of_le p (by omega) hsfx hsuf
            have := pb_greatest p (by omega) hbord
            omega
        · rw [if_neg hjz]
          push_neg at hjz
          subst hjz
          have hcross2 : ∀ s, matchAt t p s → i + 1 < s + p.length →
              i + 1 ≤ s + 0 := by
            intro s hs hlt
            have h2 := hcross s hs (by omega)
            rcases Nat.lt_or_ge i s with hlt2 | hge
            · omega
            · have hse : s = i := by omega
              subst hse
              have h3 := hs.2 0 hm
              rw [Nat.add_zero] at h3
              exact absurd h3.symm hc
          have hnoend : ¬ (p.length ≤ i + 1 ∧
              matchAt t p (i + 1 - p.length)) := by
            rintro ⟨hle, hocc⟩
            have h2 := hcross (i + 1 - p.length) hocc (by omega)
            have hm1 : p.length = 1 := by omega
            have hs0 : i + 1 - p.length = i := by omega
            rw [hs0] at hocc
            have h3 := hocc.2 0 hm
            rw [Nat.add_zero] at h3
            exact hc h3.symm
          refine ih (i+1) 0 count (by omega) hm (by omega) (by omega)
            (by rw [List.take_zero]; exact List.nil_suffix) hcross2 ?_
          rw [countEnd_succ_neg t p i hnoend]
          exact hcount
    · simp only [kmpLoop, if_neg hin]
      rw [hcount, show i = t.length by omega]

/-- KMP computes exactly the number of (possibly overlapping) occurrences,
for every nonempty pattern. -/
theorem kmp_count_correct (text pattern : String) (hp : pattern ≠ "") :
    count_occurrences text pattern = countOccs text pattern := by
  have hm : 0 < pattern.length := by
    rcases Nat.eq_zero_or_pos pattern.length with h | h
    · exact absurd (String.ext (List.length_eq_zero.mp h)) hp
    · exact h
  rw [count_occurrences]
  by_cases hguard : pattern.length = 0 ∨ text.length = 0 ∨
      pattern.length > text.length
  · rw [if_pos hguard]
    rw [countOccs, countOccsL]
    have e1 : text.data.length = text.length := rfl
    have e2 : pattern.data.length = pattern.length := rfl
    have h0 : text.data.length + 1 - pattern.data.length = 0 := by omega
    rw [h0]
    rfl
  · rw [if_neg hguard]
    push_neg at hguard
    have e1 : text.data.length = text.length := rfl
    have e2 : pattern.data.length = pattern.length := rfl
    have hm' : 0 < pattern.data.length := hm
    have hmn' : pattern.data.length ≤ text.data.length := hguard.2.2
    rw [kmpLoop_eq text.data pattern.data (computeLpsArray pattern.data) hm'
      (computeLpsArray_correct pattern.data) (2 * text.length + 1) 0 0 0
      (by omega) hm' (by omega) (by omega)
      (by rw [List.take_zero]; exact List.nil_suffix)
      (fun s _ _ => by omega)
      (countEnd_zero text.data pattern.data hm').symm]
    rw [countEnd_full]
    rfl

end Tubes3.KMPAlgorithm

namespace Tubes3.AhoCorasickAlgorithm

/-- Mathematical description of the failure-link walk: descend the border
chain `f, pb f, pb (pb f), …` until a position whose next pattern
character is `c` is found, `none` when the chain bottoms out. -/
def chainTop (p : List Char) (c : Char) (f : ℕ) : Option ℕ :=
  if f < p.length ∧ charAt p f = c then some f
  else if h : f = 0 then none
  else chainTop p c (pb p f)
termination_by f
decreasing_by
  have := pb_le p f
  omega

/-- `chainTop` finds exactly the greatest suffix-of-`take f` prefix length
whose next pattern character is `c` (or reports that none exists). -/
theorem chainTop_spec (p : List Char) (c : Char) : ∀ f : ℕ,
    (∀ e, chainTop p c f = some e →
      e ≤ f ∧ p.take e <:+ p.take f ∧ e < p.length ∧ charAt p e = c ∧
        (∀ x, x ≤ f → p.take x <:+ p.take f → x < p.length →
          charAt p x = c → x ≤ e)) ∧
    (chainTop p c f = none →
      ∀ x, x ≤ f → p.take x <:+ p.take f → x < p.length →
        charAt p x = c → False) := by
  intro f
  induction f using Nat.strong_induction_on with
  | _ f ih =>
    rw [chainTop]
    by_cases hcond : f < p.length ∧ charAt p f = c
    · rw [if_pos hcond]
      constructor
      · intro e he
        injection he with he
        subst he
        exact ⟨le_refl f, List.suffix_refl _, hcond.1, hcond.2,
          fun x hx _ _ _ => hx⟩
      · intro he
        simp at he
    · rw [if_neg hcond]
      by_cases hf0 : f = 0
      · rw [dif_pos hf0]
        subst hf0
        constructor
        · intro e he
          simp at he
        · intro _ x hx hsx hxm hxc
          have hx0 : x = 0 := by omega
          subst hx0
          exact hcond ⟨hxm, hxc⟩
      · rw [dif_neg hf0]
        have hpblt : pb p f < f := pb_lt p (Nat.pos_of_ne_zero hf0)
        obtain ⟨ihs, ihn⟩ := ih (pb p f) hpblt
        have hbridge : ∀ x, x ≤ f → p.take x <:+ p.take f → x < p.length →
            charAt p x = c → x ≤ pb p f ∧ p.take x <:+ p.take (pb p f) := by
          intro x hx hsx hxm hxc
          have hxf : x ≠ f := by
            intro he
            subst he
            exact hcond ⟨hxm, hxc⟩
          exact border_to_pb p (by omega) hsx
        constructor
        · intro e he
          obtain ⟨h1, h2, h3, h4, h5⟩ := ihs e he
          refine ⟨by omega, h2.trans (pb_suffix p f), h3, h4, ?_⟩
          intro x hx hsx hxm hxc
          obtain ⟨hb1, hb2⟩ := hbridge x hx hsx hxm hxc
          exact h5 x hb1 hb2 hxm hxc
        · intro he x hx hsx hxm hxc
          obtain ⟨hb1, hb2⟩ := hbridge x hx hsx hxm hxc
          exact ihn he x hb1 hb2 hxm hxc

/-- The recurrence the failure-link construction implements: the longest
proper border of `p.take (d+1)` extends the first border of `p.take d`
(in the failure chain starting at `pb p d`) that is followed by `p[d]`. -/
theorem pb_succ (p : List Char) (d : ℕ) (hd1 : 1 ≤ d) (hdm : d < p.length) :
    pb p (d + 1) = (match chainTop p (charAt p d) (pb p d) with
      | some e => e + 1
      | none => 0) := by
  cases hct : chainTop p (charAt p d) (pb p d) with
  | some e =>
    show pb p (d + 1) = e + 1
    obtain ⟨h1, h2, h3, h4, h5⟩ :=
      (chainTop_spec p (charAt p d) (pb p d)).1 e hct
    have hpbd := pb_lt p (show 0 < d by omega)
    have hsfx : p.take e <:+ p.take d := h2.trans (pb_suffix p d)
    have hext : p.take (e + 1) <:+ p.take (d + 1) :=
      (border_extend_iff p h3 hdm).mpr ⟨h4, hsfx⟩
    have hle : e + 1 ≤ pb p (d + 1) := pb_greatest p (by omega) hext
    have hge : pb p (d + 1) ≤ e + 1 := by
      by_contra hgt
      push_neg at hgt
      have hb' : p.take (pb p (d+1)) <:+ p.take (d+1) := pb_suffix p (d+1)
      have hblt : pb p (d + 1) < d + 1 := pb_lt p (by omega)
      have he2 : pb p (d+1) - 1 + 1 = pb p (d+1) := by omega
      rw [← he2] at hb'
      have hdec := (border_extend_iff p (by omega) hdm).mp hb'
      obtain ⟨hb1, hb2⟩ :=
        border_to_pb p (show pb p (d+1) - 1 < d by omega) hdec.2
      have := h5 (pb p (d+1) - 1) hb1 hb2 (by omega) hdec.1
      omega
    omega
  | none =>
    show pb p (d + 1) = 0
    have hnone := (chainTop_spec p (charAt p d) (pb p d)).2 hct
    by_contra hne
    have hpos : 0 < pb p (d + 1) := Nat.pos_of_ne_zero hne
    have hb' : p.take (pb p (d+1)) <:+ p.take (d+1) := pb_suffix p (d+1)
    have hblt : pb p (d + 1) < d + 1 := pb_lt p (by omega)
    have he2 : pb p (d+1) - 1 + 1 = pb p (d+1) := by omega
    rw [← he2] at hb'
    have hdec := (border_extend_iff p (by omega) hdm).mp hb'
    obtain ⟨hb1, hb2⟩ :=
      border_to_pb p (show pb p (d+1) - 1 < d by omega) hdec.2
    exact hnone (pb p (d+1) - 1) hb1 hb2 (by omega) hdec.1

/-- The length of the longest suffix of `w` that is a prefix of `p`: the
depth of the Aho-Corasick state after scanning `w`. -/
def spLen (p w : List Char) : ℕ :=
  Nat.findGreatest (fun k => p.take k <:+ w) (min p.length w.length)

theorem spLen_le (p w : List Char) : spLen p w ≤ min p.length w.length :=
  Nat.findGreatest_le _

theorem spLen_suffix (p w : List Char) : p.take (spLen p w) <:+ w := by
  have key : ∀ (P : ℕ → Prop) [DecidablePred P], P 0 →
      P (Nat.findGreatest P (min p.length w.length)) := fun P _ h =>
    Nat.findGreatest_spec (Nat.zero_le _) h
  have h0 : p.take 0 <:+ w := by
    rw [List.take_zero]
    exact List.nil_suffix
  exact key (fun k => p.take k <:+ w) h0

theorem spLen_greatest (p w : List Char) {k : ℕ} (hk : k ≤ p.length)
    (h : p.take k <:+ w) : k ≤ spLen p w := by
  apply Nat.le_findGreatest ?_ h
  have hlen := h.length_le
  rw [List.length_take] at hlen
  omega

theorem spLen_nil (p : List Char) : spLen p [] = 0 := by
  rw [spLen, List.length_nil, Nat.min_zero]
  rfl

/-- One-character transition of the longest suffix-prefix, as computed by
the failure-link walk. -/
theorem spLen_snoc (p w : List Char) (c : Char) :
    spLen p (w ++ [c]) = (match chainTop p c (spLen p w) with
      | some e => e + 1
      | none => 0) := by
  have hq := spLen_suffix p w
  have hqp : spLen p w ≤ p.length := by
    have := spLen_le p w
    omega
  have hdec : ∀ k, 1 ≤ k → k ≤ p.length → p.take k <:+ w ++ [c] →
      p.take (k - 1) <:+ w ∧ charAt p (k - 1) = c := by
    intro k hk1 hkp hks
    have he : k - 1 + 1 = k := by omega
    rw [← he, take_succ_charAt p (k - 1) (by omega)] at hks
    have h2 := (snoc_suffix_snoc_iff _ _ _ _).mp hks
    exact ⟨h2.2, h2.1⟩
  cases hct : chainTop p c (spLen p w) with
  | some e =>
    show spLen p (w ++ [c]) = e + 1
    obtain ⟨h1, h2, h3, h4, h5⟩ := (chainTop_spec p c (spLen p w)).1 e hct
    have hle : e + 1 ≤ spLen p (w ++ [c]) := by
      apply spLen_greatest p (w ++ [c]) (by omega)
      rw [take_succ_charAt p e h3]
      exact (snoc_suffix_snoc_iff _ _ _ _).mpr ⟨h4, h2.trans hq⟩
    have hge : spLen p (w ++ [c]) ≤ e + 1 := by
      by_contra hgt
      push_neg at hgt
      have hk := spLen_suffix p (w ++ [c])
      have hkp : spLen p (w ++ [c]) ≤ p.length := by
        have := spLen_le p (w ++ [c])
        omega
      obtain ⟨hd1, hd2⟩ := hdec (spLen p (w ++ [c])) (by omega) hkp hk
      have hble : spLen p (w ++ [c]) - 1 ≤ spLen p w :=
        spLen_greatest p w (by omega) hd1
      have hbord : p.take (spLen p (w ++ [c]) - 1) <:+ p.take (spLen p w) :=
        take_suffix_take_of_le p hble hd1 hq
      have := h5 (spLen p (w ++ [c]) - 1) hble hbord (by omega) hd2
      omega
    omega
  | none =>
    show spLen p (w ++ [c]) = 0
    have hnone := (chainTop_spec p c (spLen p w)).2 hct
    by_contra hne
    have hpos : 0 < spLen p (w ++ [c]) := Nat.pos_of_ne_zero hne
    have hk := spLen_suffix p (w ++ [c])
    have hkp : spLen p (w ++ [c]) ≤ p.length := by
      have := spLen_le p (w ++ [c])
      omega
    obtain ⟨hd1, hd2⟩ := hdec (spLen p (w ++ [c])) (by omega) hkp hk
    have hble : spLen p (w ++ [c]) - 1 ≤ spLen p w :=
      spLen_greatest p w (by omega) hd1
    have hbord : p.take (spLen p (w ++ [c]) - 1) <:+ p.take (spLen p w) :=
      take_suffix_take_of_le p hble hd1 hq
    exact hnone (spLen p (w ++ [c]) - 1) hble hbord (by omega) hd2

/-- The automaton is at full depth exactly when an occurrence ends at the
frontier. -/
theorem spLen_take_eq_length_iff (t p : List Char) (i : ℕ)
    (hi : i ≤ t.length) :
    spLen p (t.take i) = p.length ↔
      (p.length ≤ i ∧ matchAt t p (i - p.length)) := by
  constructor
  · intro h
    have hle := spLen_le p (t.take i)
    rw [List.length_take] at hle
    have hpi : p.length ≤ i := by omega
    have hsfx := spLen_suffix p (t.take i)
    rw [h, List.take_length p] at hsfx
    exact ⟨hpi, matchAt_of_suffix_take hsfx hpi hi⟩
  · rintro ⟨hpi, hocc⟩
    have hfull : p <:+ t.take i := by
      have h2 := suffix_full_of_matchAt hocc
      rw [show i - p.length + p.length = i by omega] at h2
      exact h2
    have hge : p.length ≤ spLen p (t.take i) :=
      spLen_greatest p (t.take i) (le_refl _)
        (by rw [List.take_length p]; exact hfull)
    have hle := spLen_le p (t.take i)
    omega

end Tubes3.AhoCorasickAlgorithm

namespace Tubes3.AhoCorasickAlgorithm

/-- The node store of the single-pattern automaton, with failure links
resolved for depths `1 … F`: node `d` is the state for `p.take d`, its
only child edge is labelled `p[d]`, and only the full-pattern node has
output. -/
def stateNodes (p : List Char) (F : ℕ) : List TrieNode :=
  (List.range (p.length + 1)).map fun d =>
    ⟨if d < p.length then [(charAt p d, d + 1)] else [],
     if 1 ≤ d ∧ d ≤ F then some (pb p d) else none,
     if d = p.length then [0] else []⟩

theorem length_stateNodes (p : List Char) (F : ℕ) :
    (stateNodes p F).length = p.length + 1 := by
  rw [stateNodes, List.length_map, List.length_range]

theorem getNode_stateNodes (p : List Char) (F d : ℕ) (hd : d ≤ p.length) :
    getNode (stateNodes p F) d =
      ⟨if d < p.length then [(charAt p d, d + 1)] else [],
       if 1 ≤ d ∧ d ≤ F then some (pb p d) else none,
       if d = p.length then [0] else []⟩ := by
  rw [getNode, stateNodes]
  exact getD_map_range _ _ _ _ (by omega)

theorem stateNodes_children (p : List Char) (F e : ℕ) (he : e ≤ p.length) :
    (getNode (stateNodes p F) e).children =
      if e < p.length then [(charAt p e, e + 1)] else [] := by
  rw [getNode_stateNodes p F e he]

theorem stateNodes_failure (p : List Char) (F e : ℕ) (he : e ≤ p.length)
    (heF : e ≤ F) :
    (getNode (stateNodes p F) e).failure =
      if e = 0 then none else some (pb p e) := by
  rw [getNode_stateNodes p F e he]
  show (if 1 ≤ e ∧ e ≤ F then some (pb p e) else none) =
    if e = 0 then none else some (pb p e)
  by_cases h0 : e = 0
  · rw [if_pos h0, if_neg (by omega)]
  · rw [if_neg h0, if_pos (by omega : 1 ≤ e ∧ e ≤ F)]

/-- Setting one element of a mapped range to the value of a pointwise-equal
map produces the other map. -/
theorem map_range_set {α : Type} (f g : ℕ → α) (n j : ℕ) (v : α) (hj : j < n)
    (hfg : ∀ i, i < n → i ≠ j → f i = g i) (hv : g j = v) :
    ((List.range n).map f).set j v = (List.range n).map g := by
  apply List.ext_getElem (by simp)
  intro i h1 h2
  simp only [List.length_set, List.length_map, List.length_range] at h1 h2
  rw [List.getElem_set]
  by_cases hij : j = i
  · subst hij
    rw [if_pos rfl]
    simp only [List.getElem_map, List.getElem_range]
    exact hv.symm
  · rw [if_neg hij]
    simp only [List.getElem_map, List.getElem_range]
    exact hfg i h2 (fun he => hij he.symm)

theorem map_range_snoc {α : Type} (f : ℕ → α) (n : ℕ) :
    (List.range n).map f ++ [f n] = (List.range (n + 1)).map f := by
  rw [List.range_succ, List.map_append]
  rfl

/-- The node store midway through inserting the single pattern: the path
for `p.take k` exists and its last node has no children yet. -/
def pathPartial (p : List Char) (k : ℕ) : List TrieNode :=
  (List.range (k + 1)).map fun d =>
    ⟨if d < k then [(charAt p d, d + 1)] else [], none, []⟩

theorem insertChars_cons_none (nodes : List TrieNode) (cur : ℕ) (c : Char)
    (rest : List Char)
    (h : dictGet (getNode nodes cur).children c = none) :
    insertChars nodes cur (c :: rest) =
      insertChars ((nodes ++ [TrieNode.empty]).set cur
        { getNode (nodes ++ [TrieNode.empty]) cur with
          children :=
            dictInsert (getNode (nodes ++ [TrieNode.empty]) cur).children c
              nodes.length })
        nodes.length rest := by
  rw [insertChars, h]

theorem insertChars_path (p : List Char) :
    ∀ j k, k + j = p.length →
      insertChars (pathPartial p k) k (p.drop k) =
        (pathPartial p p.length, p.length) := by
  intro j
  induction j with
  | zero =>
    intro k hk
    have hkm : k = p.length := by omega
    subst hkm
    rw [List.drop_length, insertChars]
  | succ j ih =>
    intro k hk
    have hkm : k < p.length := by omega
    have hdrop : p.drop k = charAt p k :: p.drop (k + 1) := by
      rw [List.drop_eq_getElem_cons hkm]
      congr 1
      rw [charAt, List.getD_eq_getElem p default hkm]
    have hnode : getNode (pathPartial p k) k = ⟨[], none, []⟩ := by
      rw [getNode, pathPartial, getD_map_range _ _ _ _ (by omega),
        if_neg (lt_irrefl k)]
    have hnone : dictGet (getNode (pathPartial p k) k).children (charAt p k) =
        none := by
      rw [hnode]
      rfl
    have hlen : (pathPartial p k).length = k + 1 := by
      rw [pathPartial, List.length_map, List.length_range]
    rw [hdrop, insertChars_cons_none _ _ _ _ hnone, hlen]
    have happ : pathPartial p k ++ [TrieNode.empty] =
        (List.range (k + 2)).map (fun d =>
          (⟨if d < k then [(charAt p d, d + 1)] else [], none, []⟩ :
            TrieNode)) := by
      rw [← map_range_snoc]
      congr 1
      rw [if_neg (by omega : ¬ k + 1 < k)]
      rfl
    have hnode2 : getNode (pathPartial p k ++ [TrieNode.empty]) k =
        ⟨[], none, []⟩ := by
      rw [happ, getNode, getD_map_range _ _ _ _ (by omega),
        if_neg (lt_irrefl k)]
    rw [hnode2, happ]
    have hset : (((List.range (k + 2)).map (fun d =>
        (⟨if d < k then [(charAt p d, d + 1)] else [], none, []⟩ :
          TrieNode))).set k
        { (⟨[], none, []⟩ : TrieNode) with
          children := dictInsert ([] : List (Char × ℕ)) (charAt p k)
            (k + 1) }) = pathPartial p (k + 1) := by
      rw [pathPartial]
      apply map_range_set _ _ (k + 2) k _ (by omega)
      · intro i hi hik
        by_cases h2 : i < k
        · rw [if_pos h2, if_pos (by omega)]
        · rw [if_neg h2, if_neg (by omega)]
      · rw [if_pos (by omega : k < k + 1)]
        rfl
    rw [hset]
    exact ih (k + 1) (by omega)

/-- `_build_trie` on the single pattern builds exactly the path automaton
(no failure links yet, output `[0]` at the terminal node). -/
theorem buildTrie_single (p : List Char) : buildTrie [p] = stateNodes p 0 := by
  have h0 : buildTrie [p] = insertPattern [TrieNode.empty] 0 p := rfl
  rw [h0, insertPattern]
  have hstart : ([TrieNode.empty] : List TrieNode) = pathPartial p 0 := by
    rw [pathPartial]
    rfl
  have hIC : insertChars (pathPartial p 0) 0 p =
      (pathPartial p p.length, p.length) := by
    have h2 := insertChars_path p p.length 0 (by omega)
    rwa [List.drop_zero] at h2
  rw [hstart, hIC]
  have hnd : getNode (pathPartial p p.length) p.length = ⟨[], none, []⟩ := by
    rw [getNode, pathPartial, getD_map_range _ _ _ _ (by omega),
      if_neg (lt_irrefl p.length)]
  show (pathPartial p p.length).set p.length
    { getNode (pathPartial p p.length) p.length with
      output := (getNode (pathPartial p p.length) p.length).output ++ [0] } =
    stateNodes p 0
  rw [hnd, pathPartial, stateNodes]
  apply map_range_set _ _ (p.length + 1) p.length _ (by omega)
  · intro i hi hik
    have hilt : i < p.length := by omega
    rw [if_pos hilt, if_neg (by omega : ¬ (1 ≤ i ∧ i ≤ 0)),
      if_neg (by omega : ¬ i = p.length)]
  · rw [if_neg (lt_irrefl p.length), if_neg (by omega : ¬ (1 ≤ p.length ∧ p.length ≤ 0)),
      if_pos rfl]
    rfl

end Tubes3.AhoCorasickAlgorithm

namespace Tubes3.AhoCorasickAlgorithm

theorem walkFail_none (nodes : List TrieNode) (c : Char) :
    ∀ fuel, walkFail nodes c fuel none = none := by
  intro fuel
  cases fuel with
  | zero => rfl
  | succ fuel => rfl

theorem bfsLoop_nil (nodes : List TrieNode) :
    ∀ fuel, bfsLoop fuel nodes [] = nodes := by
  intro fuel
  cases fuel with
  | zero => rfl
  | succ fuel => rfl

/-- On a node store shaped like the single-pattern automaton, the failure
walk is exactly the border-chain search `chainTop`. -/
theorem walkFail_eq_chainTop (p : List Char) (nodes : List TrieNode)
    (bound : ℕ)
    (hch : ∀ e, e ≤ bound → (getNode nodes e).children =
      if e < p.length then [(charAt p e, e + 1)] else [])
    (hfl : ∀ e, e ≤ bound → (getNode nodes e).failure =
      if e = 0 then none else some (pb p e)) (c : Char) :
    ∀ fuel f, f ≤ bound → f < fuel →
      walkFail nodes c fuel (some f) = chainTop p c f := by
  intro fuel
  induction fuel with
  | zero =>
    intro f _ h
    exact absurd h (by omega)
  | succ fuel ih =>
    intro f hfb hff
    have hstep : walkFail nodes c (fuel + 1) (some f) =
        (match dictGet (getNode nodes f).children c with
         | some _ => some f
         | none => walkFail nodes c fuel (getNode nodes f).failure) := rfl
    rw [hstep, hch f hfb, chainTop]
    by_cases hfm : f < p.length
    · rw [if_pos hfm]
      by_cases hc2 : charAt p f = c
      · rw [show dictGet [(charAt p f, f + 1)] c = some (f + 1) from
          by rw [dictGet, if_pos hc2], if_pos ⟨hfm, hc2⟩]
      · rw [show dictGet [(charAt p f, f + 1)] c = none from
          by rw [dictGet, if_neg hc2]; rfl, if_neg (fun hand => hc2 hand.2),
          hfl f hfb]
        by_cases hf0 : f = 0
        · rw [if_pos hf0, dif_pos hf0, walkFail_none]
        · rw [if_neg hf0, dif_neg hf0]
          have hpblt := pb_lt p (Nat.pos_of_ne_zero hf0)
          show walkFail nodes c fuel (some (pb p f)) = chainTop p c (pb p f)
          exact ih (pb p f) (by omega) (by omega)
    · rw [if_neg hfm,
        show dictGet ([] : List (Char × ℕ)) c = none from rfl,
        if_neg (fun hand => hfm hand.1), hfl f hfb]
      by_cases hf0 : f = 0
      · rw [if_pos hf0, dif_pos hf0, walkFail_none]
      · rw [if_neg hf0, dif_neg hf0]
        have hpblt := pb_lt p (Nat.pos_of_ne_zero hf0)
        show walkFail nodes c fuel (some (pb p f)) = chainTop p c (pb p f)
        exact ih (pb p f) (by omega) (by omega)

/-- Processing node `d`'s single child sets the child's failure link to
the longest proper border of `p.take (d+1)` and leaves its output
unchanged. -/
theorem processChild_stateNodes (p : List Char) (d : ℕ) (hd1 : 1 ≤ d)
    (hdm : d < p.length) :
    processChild (stateNodes p d) d (d + 1) (charAt p d) =
      stateNodes p (d + 1) := by
  have hflr : (getNode (stateNodes p d) d).failure = some (pb p d) := by
    rw [stateNodes_failure p d d (by omega) (le_refl d),
      if_neg (by omega : ¬ d = 0)]
  have hwf : walkFail (stateNodes p d) (charAt p d)
      ((stateNodes p d).length + 1) (some (pb p d)) =
      chainTop p (charAt p d) (pb p d) :=
    walkFail_eq_chainTop p (stateNodes p d) (d - 1)
      (fun e he => stateNodes_children p d e (by omega))
      (fun e he => stateNodes_failure p d e (by omega) (by omega))
      (charAt p d) ((stateNodes p d).length + 1) (pb p d)
      (by have := pb_le p d; omega)
      (by rw [length_stateNodes]; have := pb_le p d; omega)
  simp only [processChild]
  rw [hflr, hwf]
  have hcf2 : (match chainTop p (charAt p d) (pb p d) with
      | some fi =>
        (match dictGet (getNode (stateNodes p d) fi).children (charAt p d)
          with
         | some target => target
         | none => 0)
      | none => 0) = pb p (d + 1) := by
    rw [pb_succ p d hd1 hdm]
    cases hct : chainTop p (charAt p d) (pb p d) with
    | some e =>
      obtain ⟨h1, h2, h3, h4, h5⟩ :=
        (chainTop_spec p (charAt p d) (pb p d)).1 e hct
      have hchld : (getNode (stateNodes p d) e).children =
          [(charAt p e, e + 1)] := by
        rw [stateNodes_children p d e (by omega), if_pos h3]
      show (match dictGet (getNode (stateNodes p d) e).children (charAt p d)
          with
        | some target => target
        | none => 0) = e + 1
      rw [hchld, show dictGet [(charAt p e, e + 1)] (charAt p d) =
        some (e + 1) from by rw [dictGet, if_pos h4]]
    | none => rfl
  rw [hcf2]
  have hpble : pb p (d + 1) ≤ d := by
    have := pb_le p (d + 1)
    omega
  have hfno : (getNode (stateNodes p d) (pb p (d + 1))).output = [] := by
    rw [getNode_stateNodes p d (pb p (d + 1)) (by omega)]
    show (if pb p (d + 1) = p.length then [0] else ([] : List ℕ)) = []
    rw [if_neg (by omega : ¬ pb p (d + 1) = p.length)]
  rw [hfno, List.append_nil, getNode_stateNodes p d (d + 1) (by omega)]
  rw [stateNodes, stateNodes]
  apply map_range_set _ _ (p.length + 1) (d + 1) _ (by omega)
  · intro i hi hik
    by_cases h2 : 1 ≤ i ∧ i ≤ d
    · rw [if_pos h2, if_pos (by omega : 1 ≤ i ∧ i ≤ d + 1)]
    · rw [if_neg h2, if_neg (by omega : ¬ (1 ≤ i ∧ i ≤ d + 1))]
  · rw [if_pos (by omega : 1 ≤ d + 1 ∧ d + 1 ≤ d + 1),
      if_neg (by omega : ¬ (1 ≤ d + 1 ∧ d + 1 ≤ d))]

/-- The breadth-first loop walks down the path, turning `stateNodes p d`
into `stateNodes p (d+1)` at each step. -/
theorem bfsLoop_path (p : List Char) :
    ∀ fuel d, 1 ≤ d → d ≤ p.length → p.length + 1 ≤ fuel + d →
      bfsLoop fuel (stateNodes p d) [d] = stateNodes p p.length := by
  intro fuel
  induction fuel with
  | zero =>
    intro d h1 h2 h3
    exfalso
    omega
  | succ fuel ih =>
    intro d h1 h2 h3
    simp only [bfsLoop]
    have hch : (getNode (stateNodes p d) d).children =
        if d < p.length then [(charAt p d, d + 1)] else [] :=
      stateNodes_children p d d (by omega)
    by_cases hdm : d < p.length
    · rw [hch, if_pos hdm]
      show bfsLoop fuel (processChild (stateNodes p d) d (d + 1) (charAt p d))
        ([] ++ ([] ++ [d + 1])) = stateNodes p p.length
      rw [processChild_stateNodes p d h1 hdm]
      exact ih (d + 1) (by omega) (by omega) (by omega)
    · have hdm2 : d = p.length := by omega
      subst hdm2
      rw [hch, if_neg (lt_irrefl _)]
      show bfsLoop fuel (stateNodes p p.length) ([] ++ []) =
        stateNodes p p.length
      exact bfsLoop_nil _ fuel

/-- `_build_failure_links` resolves every failure link of the path
automaton to the longest proper border of the node's prefix. -/
theorem buildFailureLinks_single (p : List Char) (hm : 0 < p.length) :
    buildFailureLinks (stateNodes p 0) = stateNodes p p.length := by
  simp only [buildFailureLinks]
  have hrc : (getNode (stateNodes p 0) 0).children = [(charAt p 0, 1)] := by
    rw [stateNodes_children p 0 0 (by omega), if_pos hm]
  rw [hrc]
  show bfsLoop ((stateNodes p 0).length + 1)
    ((stateNodes p 0).set 1
      { getNode (stateNodes p 0) 1 with failure := some 0 }) [1] =
    stateNodes p p.length
  have hset : (stateNodes p 0).set 1
      { getNode (stateNodes p 0) 1 with failure := some 0 } =
      stateNodes p 1 := by
    rw [getNode_stateNodes p 0 1 (by omega)]
    rw [stateNodes, stateNodes]
    apply map_range_set _ _ (p.length + 1) 1 _ (by omega)
    · intro i hi hik
      rw [if_neg (by omega : ¬ (1 ≤ i ∧ i ≤ 0)),
        if_neg (by omega : ¬ (1 ≤ i ∧ i ≤ 1))]
    · rw [if_pos (by omega : 1 ≤ 1 ∧ 1 ≤ 1),
        if_neg (by omega : ¬ (1 ≤ 1 ∧ 1 ≤ 0)), pb_one]
  rw [hset, length_stateNodes]
  exact bfsLoop_path p (p.length + 2) 1 (by omega) (by omega) (by omega)

end Tubes3.AhoCorasickAlgorithm

namespace Tubes3.AhoCorasickAlgorithm

/-- One `_search_patterns` character step on the finished automaton moves
the state to the longest suffix-prefix of the extended text and bumps the
single counter exactly when the automaton reaches full depth. -/
theorem searchStep_spLen (p : List Char) (hm : 0 < p.length) (w : List Char)
    (c : Char) (counts : List ℕ) :
    searchStep (stateNodes p p.length) (spLen p w, counts) c =
      (spLen p (w ++ [c]),
        if spLen p (w ++ [c]) = p.length
        then counts.set 0 (counts.getD 0 0 + 1) else counts) := by
  have hwf : walkFail (stateNodes p p.length) c
      ((stateNodes p p.length).length + 1) (some (spLen p w)) =
      chainTop p c (spLen p w) :=
    walkFail_eq_chainTop p (stateNodes p p.length) p.length
      (fun e he => stateNodes_children p p.length e he)
      (fun e he => stateNodes_failure p p.length e he he)
      c ((stateNodes p p.length).length + 1) (spLen p w)
      (by have := spLen_le p w; omega)
      (by rw [length_stateNodes]; have := spLen_le p w; omega)
  have hstep : searchStep (stateNodes p p.length) (spLen p w, counts) c =
      (match walkFail (stateNodes p p.length) c
          ((stateNodes p p.length).length + 1) (some (spLen p w)) with
       | none => (0, counts)
       | some fi =>
         match dictGet (getNode (stateNodes p p.length) fi).children c with
         | some nxt =>
           (nxt, (getNode (stateNodes p p.length) nxt).output.foldl
             (fun cnts pidx => cnts.set pidx (cnts.getD pidx 0 + 1)) counts)
         | none => (0, counts)) := rfl
  rw [hstep, hwf, spLen_snoc p w c]
  cases hct : chainTop p c (spLen p w) with
  | none =>
    show ((0 : ℕ), counts) =
      (0, if (0 : ℕ) = p.length
        then counts.set 0 (counts.getD 0 0 + 1) else counts)
    rw [if_neg (by omega : ¬ (0 : ℕ) = p.length)]
  | some e =>
    obtain ⟨h1, h2, h3, h4, h5⟩ := (chainTop_spec p c (spLen p w)).1 e hct
    have hchld : (getNode (stateNodes p p.length) e).children =
        [(charAt p e, e + 1)] := by
      rw [stateNodes_children p p.length e (by omega), if_pos h3]
    show (match dictGet (getNode (stateNodes p p.length) e).children c with
       | some nxt =>
         (nxt, (getNode (stateNodes p p.length) nxt).output.foldl
           (fun cnts pidx => cnts.set pidx (cnts.getD pidx 0 + 1)) counts)
       | none => ((0 : ℕ), counts)) =
      (e + 1, if e + 1 = p.length
        then counts.set 0 (counts.getD 0 0 + 1) else counts)
    rw [hchld, show dictGet [(charAt p e, e + 1)] c = some (e + 1) from
      by rw [dictGet, if_pos h4]]
    have hout : (getNode (stateNodes p p.length) (e + 1)).output =
        if e + 1 = p.length then [0] else [] := by
      rw [getNode_stateNodes p p.length (e + 1) (by omega)]
    show (e + 1, ((getNode (stateNodes p p.length) (e + 1)).output).foldl
        (fun cnts pidx => cnts.set pidx (cnts.getD pidx 0 + 1)) counts) =
      (e + 1, if e + 1 = p.length
        then counts.set 0 (counts.getD 0 0 + 1) else counts)
    rw [hout]
    by_cases hem : e + 1 = p.length
    · rw [if_pos hem, if_pos hem]
      rfl
    · rw [if_neg hem, if_neg hem]
      rfl

/-- Scanning the first `i` characters leaves the automaton at the longest
suffix-prefix state with the ended-occurrence count recorded. -/
theorem searchFold (p t : List Char) (hm : 0 < p.length) :
    ∀ i, i ≤ t.length →
      (t.take i).foldl (searchStep (stateNodes p p.length)) (0, [0]) =
        (spLen p (t.take i), [countEnd t p i]) := by
  intro i
  induction i with
  | zero =>
    intro _
    rw [List.take_zero,
      show ([] : List Char).foldl (searchStep (stateNodes p p.length))
        (0, [0]) = (0, [0]) from rfl,
      spLen_nil, countEnd_zero t p hm]
  | succ i ih =>
    intro hi1
    have hi : i < t.length := by omega
    rw [take_succ_charAt t i hi, List.foldl_append, ih (by omega),
      show ([charAt t i] : List Char).foldl
        (searchStep (stateNodes p p.length))
        (spLen p (t.take i), [countEnd t p i]) =
        searchStep (stateNodes p p.length)
          (spLen p (t.take i), [countEnd t p i]) (charAt t i) from rfl,
      searchStep_spLen p hm (t.take i) (charAt t i) [countEnd t p i],
      ← take_succ_charAt t i hi]
    by_cases hend : spLen p (t.take (i + 1)) = p.length
    · rw [if_pos hend]
      obtain ⟨hple, hocc⟩ :=
        (spLen_take_eq_length_iff t p (i + 1) (by omega)).mp hend
      rw [show ([countEnd t p i] : List ℕ).set 0
          (([countEnd t p i] : List ℕ).getD 0 0 + 1) =
          [countEnd t p i + 1] from rfl,
        countEnd_succ_pos t p i hple hi hocc]
    · rw [if_neg hend]
      have hnoend : ¬ (p.length ≤ i + 1 ∧ matchAt t p (i + 1 - p.length)) :=
        fun hcon =>
          hend ((spLen_take_eq_length_iff t p (i + 1) (by omega)).mpr hcon)
      rw [countEnd_succ_neg t p i hnoend]

/-- Aho-Corasick computes exactly the number of (possibly overlapping)
occurrences, for every nonempty pattern. -/
theorem ac_count_correct (text pattern : String) (hp : pattern ≠ "") :
    count_occurrences text pattern = countOccs text pattern := by
  have hm : 0 < pattern.length := by
    rcases Nat.eq_zero_or_pos pattern.length with h | h
    · exact absurd (String.ext (List.length_eq_zero.mp h)) hp
    · exact h
  rw [count_occurrences]
  by_cases hguard : pattern.length = 0 ∨ text.length = 0 ∨
      pattern.length > text.length
  · rw [if_pos hguard]
    rw [countOccs, countOccsL]
    have e1 : text.data.length = text.length := rfl
    have e2 : pattern.data.length = pattern.length := rfl
    have h0 : text.data.length + 1 - pattern.data.length = 0 := by omega
    rw [h0]
    rfl
  · rw [if_neg hguard]
    push_neg at hguard
    have hm' : 0 < pattern.data.length := hm
    show (searchPatterns (buildFailureLinks (buildTrie [pattern.data])) 1
      text.data).getD 0 0 = countOccs text pattern
    rw [buildTrie_single pattern.data, buildFailureLinks_single pattern.data
      hm', searchPatterns,
      show (List.replicate 1 (0 : ℕ)) = [0] from rfl]
    have hfold := searchFold pattern.data text.data hm' text.data.length
      (le_refl _)
    rw [List.take_length] at hfold
    rw [hfold,
      show (((spLen pattern.data text.data,
        [countEnd text.data pattern.data text.data.length]) :
        ℕ × List ℕ)).2.getD 0 0 =
        countEnd text.data pattern.data text.data.length from rfl,
      countEnd_full]
    rfl

end Tubes3.AhoCorasickAlgorithm

open Tubes3 in
/-- C1: for every text and every pattern the three exact engines agree —
`KMPAlgorithm.count_occurrences`, `BoyerMooreAlgorithm.count_occurrences`
and `AhoCorasickAlgorithm.count_occurrences` return the same value — and
for every nonempty pattern that common value is `countOccs`, the number of
all (including overlapping) start positions of the pattern in the text.
(On the degenerate inputs of C6 — in particular the empty pattern — all
three return `0` through their identical guards, so they still agree.) -/
theorem claim_C1_cross_engine_agreement (text pattern : String) :
    (KMPAlgorithm.count_occurrences text pattern =
        BoyerMooreAlgorithm.count_occurrences text pattern ∧
      BoyerMooreAlgorithm.count_occurrences text pattern =
        AhoCorasickAlgorithm.count_occurrences text pattern) ∧
    (pattern ≠ "" →
      KMPAlgorithm.count_occurrences text pattern =
        countOccs text pattern) := by
  constructor
  · by_cases hp : pattern = ""
    · subst hp
      have hg : ("" : String).length = 0 ∨ text.length = 0 ∨
          ("" : String).length > text.length := Or.inl rfl
      constructor
      · rw [KMPAlgorithm.count_occurrences,
          BoyerMooreAlgorithm.count_occurrences, if_pos hg, if_pos hg]
      · rw [BoyerMooreAlgorithm.count_occurrences,
          AhoCorasickAlgorithm.count_occurrences, if_pos hg, if_pos hg]
    · constructor
      · rw [KMPAlgorithm.kmp_count_correct text pattern hp,
          BoyerMooreAlgorithm.bm_count_correct text pattern hp]
      · rw [BoyerMooreAlgorithm.bm_count_correct text pattern hp,
          AhoCorasickAlgorithm.ac_count_correct text pattern hp]
  · intro hp
    exact KMPAlgorithm.kmp_count_correct text pattern hp

open Tubes3 in
/-- Concrete instance of C1 with overlapping occurrences: on text `aaaa`
and pattern `aa` all three engines return the overlap-inclusive count 3. -/
theorem claim_C1_cross_engine_agreement_witness :
    ("aa" : String) ≠ "" ∧
    KMPAlgorithm.count_occurrences "aaaa" "aa" =
      BoyerMooreAlgorithm.count_occurrences "aaaa" "aa" ∧
    BoyerMooreAlgorithm.count_occurrences "aaaa" "aa" =
      AhoCorasickAlgorithm.count_occurrences "aaaa" "aa" ∧
    KMPAlgorithm.count_occurrences "aaaa" "aa" = countOccs "aaaa" "aa" ∧
    countOccs "aaaa" "aa" = 3 :=
  ⟨by decide,
   (claim_C1_cross_engine_agreement "aaaa" "aa").1.1,
   (claim_C1_cross_engine_agreement "aaaa" "aa").1.2,
   (claim_C1_cross_engine_agreement "aaaa" "aa").2 (by decide),
   by decide⟩
